import Mathlib

/-!
Shallow embedding of the adjacency-list / materialized-path tree converter
(`src/main.py`) and verification of its specification.

Python strings are modelled as `List Char` (a faithful model of Python's
sequence-of-code-points strings); Python `dict`s keyed by string are modelled
as association lists in insertion order (Python dicts iterate in insertion
order, and the code never overwrites an existing key, so an association list
with distinct keys is an exact model).  Python exceptions are modelled with
`Except`: the four `ValueError`s raised by the program are distinguished by
the `TreeError` constructors named after the specification's error taxonomy.
The recursive depth-first traversal is embedded with explicit fuel; fuel
exhaustion (`TreeError.OutOfFuel`) models non-termination and is proved
unreachable on trees built by successful `add_node` calls.
-/

namespace Lr7

/-- Python strings are sequences of code points. -/
abbrev Str := List Char

/-- `str s` converts a Lean string literal to its code-point list model. -/
def str (s : String) : Str := s.data

/-- Model of the Python `ALNode` dataclass: identifier, optional parent
identifier (`none` means root), display name. -/
structure ALNode where
  node_id : Str
  parent_id : Option Str
  name : Str
deriving DecidableEq, Repr

/-- Model of the Python `AdjacencyListTree`: its `nodes` dict, as an
association list in insertion order, keyed by `node_id`. -/
structure AdjacencyListTree where
  nodes : List ALNode
deriving DecidableEq, Repr

/-- The error taxonomy of the specification (§7).  The Python code raises
`ValueError` with distinguishing messages; each message corresponds to one
constructor here.  `EmptySeparator` models the `ValueError: empty separator`
raised by Python's `str.split` when the configured delimiter is the empty
string; `KeyError` models a Python `KeyError` on a missing dict key; and
`OutOfFuel` is an artifact of embedding the recursive traversal with fuel,
proved unreachable for trees built by successful `add_node` calls. -/
inductive TreeError where
  | DuplicateIdentifier (id : Str)
  | UnknownParent (pid : Str)
  | MalformedPath (id : Str) (path : Str)
  | PathIdentityMismatch (id : Str) (lastSeg : Str)
  | EmptySeparator
  | KeyError (id : Str)
  | OutOfFuel
deriving DecidableEq, Repr

/-- The empty adjacency-list tree (`AdjacencyListTree.__init__`). -/
def AdjacencyListTree.empty : AdjacencyListTree := ⟨[]⟩

/-- Lookup in the `nodes` dict: `self.nodes[node_id]` / `node_id in self.nodes`. -/
def AdjacencyListTree.find? (al : AdjacencyListTree) (id : Str) : Option ALNode :=
  al.nodes.find? (fun n => n.node_id == id)

/-- `node_id in self.nodes`. -/
def AdjacencyListTree.contains (al : AdjacencyListTree) (id : Str) : Bool :=
  (al.find? id).isSome

/-- Statement-by-statement embedding of `AdjacencyListTree.add_node` as a
state transformer: the pair is (raised exception or returned value, state of
the container after the call).  The two validating `raise` statements come
before the single mutating assignment, exactly as in the source. -/
def AdjacencyListTree.add_node_st (al : AdjacencyListTree) (node_id : Str)
    (parent_id : Option Str) (name : Str) :
    Except TreeError Unit × AdjacencyListTree :=
  if al.contains node_id then
    (.error (.DuplicateIdentifier node_id), al)
  else
    match parent_id with
    | some p =>
      if !(al.contains p) then
        (.error (.UnknownParent p), al)
      else
        (.ok (), ⟨al.nodes ++ [ALNode.mk node_id parent_id name]⟩)
    | none => (.ok (), ⟨al.nodes ++ [ALNode.mk node_id parent_id name]⟩)

/-- `AdjacencyListTree.add_node`, with the exception carried in `Except`
(the caller's container is unchanged on error, see `add_node_st`). -/
def AdjacencyListTree.add_node (al : AdjacencyListTree) (node_id : Str)
    (parent_id : Option Str) (name : Str) :
    Except TreeError AdjacencyListTree :=
  match al.add_node_st node_id parent_id name with
  | (.ok _, al') => .ok al'
  | (.error e, _) => .error e

/-- `AdjacencyListTree.roots`. -/
def AdjacencyListTree.roots (al : AdjacencyListTree) : List Str :=
  (al.nodes.filter (fun n => n.parent_id == none)).map (·.node_id)

/-- `AdjacencyListTree.children_of`. -/
def AdjacencyListTree.children_of (al : AdjacencyListTree) (parent_id : Str) :
    List Str :=
  (al.nodes.filter (fun n => n.parent_id == some parent_id)).map (·.node_id)

/-- `len(self.nodes)` (the number of keys of the dict). -/
def AdjacencyListTree.size (al : AdjacencyListTree) : Nat := al.nodes.length

/-- Model of the Python `MPNode` dataclass. -/
structure MPNode where
  node_id : Str
  path : Str
  name : Str
deriving DecidableEq, Repr

/-- Model of the Python `MaterializedPathTree`: the configured separator and
the `nodes` dict as an association list in insertion order. -/
structure MaterializedPathTree where
  sep : Str
  nodes : List MPNode
deriving DecidableEq, Repr

/-- `MaterializedPathTree.__init__` (the default separator is `"/"`). -/
def MaterializedPathTree.empty (sep : Str) : MaterializedPathTree := ⟨sep, []⟩

/-- Lookup in the `nodes` dict of a materialized-path tree. -/
def MaterializedPathTree.find? (mp : MaterializedPathTree) (id : Str) :
    Option MPNode :=
  mp.nodes.find? (fun n => n.node_id == id)

/-- `node_id in self.nodes`. -/
def MaterializedPathTree.contains (mp : MaterializedPathTree) (id : Str) : Bool :=
  (mp.find? id).isSome

/-- `MaterializedPathTree.add_node`: duplicate check, then the
`path.startswith(self.sep)` check (`List.isPrefixOf` is Python's
`startswith` on code-point lists), then unconditional insertion. -/
def MaterializedPathTree.add_node (mp : MaterializedPathTree) (node_id : Str)
    (path : Str) (name : Str) : Except TreeError MaterializedPathTree :=
  if mp.contains node_id then
    .error (.DuplicateIdentifier node_id)
  else if !(mp.sep.isPrefixOf path) then
    .error (.MalformedPath node_id path)
  else
    .ok ⟨mp.sep, mp.nodes ++ [MPNode.mk node_id path name]⟩

/-- `len(self.nodes)` for a materialized-path tree. -/
def MaterializedPathTree.size (mp : MaterializedPathTree) : Nat := mp.nodes.length

/-!  ## Forward converter (`convert_al_to_mp`)  -/

/-- The sorted child list `children_map[parent]` of `convert_al_to_mp`:
the dict groups node identifiers by stored parent in insertion order and
each group is then sorted in ascending lexicographic order, so each group is
the lexicographically sorted list of the identifiers whose stored parent
equals `p` (`p = none` is the root group). -/
def childIds (al : AdjacencyListTree) (p : Option Str) : List Str :=
  List.insertionSort (· ≤ ·)
    ((al.nodes.filter (fun n => n.parent_id == p)).map (·.node_id))

/-- The inner recursive `dfs_build` of `convert_al_to_mp`, with explicit
structural fuel.  It computes `cur_path` exactly as the source (note the
special case when the accumulated parent path equals the separator), emits
the node via `MaterializedPathTree.add_node`, and runs the
`for child_id in children_map.get(node_id, [])` loop over the sorted
children as a fold that threads the output container and aborts on the
first raised error, exactly like the Python loop. -/
def dfs_build (al : AdjacencyListTree) (sep : Str) :
    Nat → Str → Str → MaterializedPathTree →
    Except TreeError MaterializedPathTree
  | 0, _, _, _ => .error .OutOfFuel
  | fuel + 1, node_id, parent_path, mp =>
    let cur_path := if parent_path = sep then sep ++ node_id
                    else parent_path ++ sep ++ node_id
    match al.find? node_id with
    | none => .error (.KeyError node_id)
    | some n =>
      match mp.add_node node_id cur_path n.name with
      | .error e => .error e
      | .ok mp' =>
        (childIds al (some node_id)).foldlM
          (fun acc child_id => dfs_build al sep fuel child_id cur_path acc) mp'

/-- A `for r in roots: dfs_build(r, sep)`-style loop: run `dfs_build` over
each member of `l` in order, threading the output container. -/
def dfs_forest (al : AdjacencyListTree) (sep : Str) (fuel : Nat) (l : List Str)
    (parent_path : Str) (mp : MaterializedPathTree) :
    Except TreeError MaterializedPathTree :=
  l.foldlM (fun acc id => dfs_build al sep fuel id parent_path acc) mp

/-- `convert_al_to_mp`: group and sort children, then run the depth-first
build from each root (roots in ascending lexicographic order) with the
separator as the initial parent path.  The initial fuel `al.size` is enough
for any tree built by successful `add_node` calls, whose depth never exceeds
its node count. -/
def convert_al_to_mp (al : AdjacencyListTree) (sep : Str) :
    Except TreeError MaterializedPathTree :=
  dfs_forest al sep al.size (childIds al none) sep (MaterializedPathTree.empty sep)

/-!  ## Reverse converter (`convert_mp_to_al`)  -/

/-- Python's `s.split(sep)` for a non-empty separator `sep`, on code-point
lists: scan left to right, cutting at each leftmost non-overlapping
occurrence of `sep`.  The structural fuel (`s.length` at the call site in
`splitChars`) only bounds the recursion and is never exhausted, since every
step consumes at least one character.  (For `sep = []` Python raises
`ValueError: empty separator`; that case is guarded at the call site in
`convert_mp_to_al` and the value returned here for it is never used.) -/
def splitCharsAux (sep : Str) : Nat → Str → List Str
  | 0, s => [s]
  | _ + 1, [] => [[]]
  | f + 1, x :: xs =>
    if sep ≠ [] ∧ sep.isPrefixOf (x :: xs) then
      [] :: splitCharsAux sep f ((x :: xs).drop sep.length)
    else
      match splitCharsAux sep f xs with
      | [] => [[x]]
      | y :: ys => (x :: y) :: ys

/-- Python's `s.split(sep)` (see `splitCharsAux`). -/
def splitChars (sep s : Str) : List Str := splitCharsAux sep s.length s

/-- `[p for p in node.path.split(mp.sep) if p]`: the split with falsy
(empty) segments discarded. -/
def pathParts (sep path : Str) : List Str :=
  (splitChars sep path).filter (fun p => p ≠ [])

/-- The local `depth` function of `convert_mp_to_al`: the number of
non-empty segments of the node's path. -/
def depth (sep : Str) (node : MPNode) : Nat := (pathParts sep node.path).length

/-- `items` of `convert_mp_to_al`: the nodes in insertion order, stably
sorted by ascending depth (`items.sort(key=...)`; `insertionSort` is stable,
like Python's sort). -/
def mpSortedItems (mp : MaterializedPathTree) : List MPNode :=
  List.insertionSort (fun a b => depth mp.sep a ≤ depth mp.sep b) mp.nodes

/-- One iteration of the reconstruction loop of `convert_mp_to_al`: split
the path, fail with `MalformedPath` on zero segments, fail with
`PathIdentityMismatch` when the last segment differs from the node's
identifier, then insert with the second-to-last segment as parent (roots,
i.e. single-segment paths, get an absent parent). -/
def mpStep (sep : Str) (al : AdjacencyListTree) (node : MPNode) :
    Except TreeError AdjacencyListTree :=
  let parts := pathParts sep node.path
  match parts.getLast? with
  | none => .error (.MalformedPath node.node_id node.path)
  | some lastSeg =>
    if lastSeg ≠ node.node_id then
      .error (.PathIdentityMismatch node.node_id lastSeg)
    else
      let parent_id : Option Str :=
        if parts.length = 1 then none else parts[parts.length - 2]?
      al.add_node node.node_id parent_id node.name

/-- `convert_mp_to_al`: sort the nodes by ascending depth and rebuild a
fresh adjacency-list tree via `add_node`, propagating failures.  When the
configured separator is empty and there is at least one node, Python's
`str.split` raises `ValueError: empty separator` from inside the sort key,
before any node is processed; the guard models exactly that. -/
def convert_mp_to_al (mp : MaterializedPathTree) :
    Except TreeError AdjacencyListTree :=
  if mp.sep = [] ∧ mp.nodes ≠ [] then .error .EmptySeparator
  else (mpSortedItems mp).foldlM (mpStep mp.sep) AdjacencyListTree.empty

/-!  ## Concrete instances used in the verification  -/

/-- Scenario A of the specification after `add_node("A", absent, "Root A")`. -/
def alScenarioA1 : AdjacencyListTree :=
  ⟨[ALNode.mk (str "A") none (str "Root A")]⟩

/-- Scenario A after also adding `B` under `A`. -/
def alScenarioA2 : AdjacencyListTree :=
  ⟨[ALNode.mk (str "A") none (str "Root A"),
    ALNode.mk (str "B") (some (str "A")) (str "Node B")]⟩

/-- Scenario A after also adding `C` under `A`. -/
def alScenarioA3 : AdjacencyListTree :=
  ⟨[ALNode.mk (str "A") none (str "Root A"),
    ALNode.mk (str "B") (some (str "A")) (str "Node B"),
    ALNode.mk (str "C") (some (str "A")) (str "Node C")]⟩

/-- The Scenario A tree: A (root), B and C under A, D under B. -/
def alScenarioA : AdjacencyListTree :=
  ⟨[ALNode.mk (str "A") none (str "Root A"),
    ALNode.mk (str "B") (some (str "A")) (str "Node B"),
    ALNode.mk (str "C") (some (str "A")) (str "Node C"),
    ALNode.mk (str "D") (some (str "B")) (str "Node D")]⟩

/-- The forward conversion of the Scenario A tree (pre-order, children in
ascending lexicographic order). -/
def mpScenarioA : MaterializedPathTree :=
  ⟨str "/", [MPNode.mk (str "A") (str "/A") (str "Root A"),
    MPNode.mk (str "B") (str "/A/B") (str "Node B"),
    MPNode.mk (str "D") (str "/A/B/D") (str "Node D"),
    MPNode.mk (str "C") (str "/A/C") (str "Node C")]⟩

/-- A tree whose single root has the empty identifier. -/
def alEmptyRoot : AdjacencyListTree := ⟨[ALNode.mk [] none []]⟩

/-- Its forward conversion: one node with path `"/"`. -/
def mpEmptyRoot : MaterializedPathTree :=
  ⟨str "/", [MPNode.mk [] (str "/") []]⟩

/-- An empty-identifier root with one child `c`. -/
def alEmptyRootChild : AdjacencyListTree :=
  ⟨[ALNode.mk [] none [], ALNode.mk (str "c") (some []) []]⟩

/-- Its forward conversion: paths `"/"` and `"/c"`. -/
def mpEmptyRootChild : MaterializedPathTree :=
  ⟨str "/", [MPNode.mk [] (str "/") [], MPNode.mk (str "c") (str "/c") []]⟩

/-- A single root whose identifier `A/B` contains the delimiter. -/
def alSlash : AdjacencyListTree := ⟨[ALNode.mk (str "A/B") none []]⟩

/-- Its forward conversion: one node with path `"/A/B"`. -/
def mpSlash : MaterializedPathTree :=
  ⟨str "/", [MPNode.mk (str "A/B") (str "/A/B") []]⟩

/-- Two roots `A`, `B` and a child `C` of `A`, inserted in order A, B, C. -/
def alTwoOrders1 : AdjacencyListTree :=
  ⟨[ALNode.mk (str "A") none (str "x"),
    ALNode.mk (str "B") none (str "y"),
    ALNode.mk (str "C") (some (str "A")) (str "z")]⟩

/-- The same three nodes inserted in order B, A, C. -/
def alTwoOrders2 : AdjacencyListTree :=
  ⟨[ALNode.mk (str "B") none (str "y"),
    ALNode.mk (str "A") none (str "x"),
    ALNode.mk (str "C") (some (str "A")) (str "z")]⟩

/-- A materialized-path tree holding `B ↦ /X/B` and then `Z ↦ /X/Y`:
`Z`'s last segment mismatches, but `B` (same depth, earlier) hits an
unknown parent `X` first. -/
def mpPreempt : MaterializedPathTree :=
  ⟨str "/", [MPNode.mk (str "B") (str "/X/B") [],
    MPNode.mk (str "Z") (str "/X/Y") []]⟩

/-- Scenario C: identifier `Z` with path `/X/Y`. -/
def mpScenarioC : MaterializedPathTree :=
  ⟨str "/", [MPNode.mk (str "Z") (str "/X/Y") []]⟩

/-- One node whose path `"/"` splits into zero segments. -/
def mpZeroSeg : MaterializedPathTree :=
  ⟨str "/", [MPNode.mk (str "a") (str "/") []]⟩

/-!  ## Specification-side notions  -/

/-- Adjacency-list trees reachable from the empty container by a sequence of
successful `add_node` calls. -/
inductive Built : AdjacencyListTree → Prop where
  | empty : Built AdjacencyListTree.empty
  | step {al al' : AdjacencyListTree} {id : Str} {p : Option Str} {nm : Str} :
      Built al → al.add_node id p nm = .ok al' → Built al'

/-- Materialized-path trees reachable from an empty container by a sequence
of successful `add_node` calls. -/
inductive MPBuilt : MaterializedPathTree → Prop where
  | empty (sep : Str) : MPBuilt (MaterializedPathTree.empty sep)
  | step {mp mp' : MaterializedPathTree} {id pth nm : Str} :
      MPBuilt mp → mp.add_node id pth nm = .ok mp' → MPBuilt mp'

/-- The identifier set (in insertion order) of an adjacency-list tree. -/
def ids (al : AdjacencyListTree) : List Str := al.nodes.map (·.node_id)

/-- Position of the node with identifier `id` in the insertion order
(`al.size` when absent). -/
def rankAux (id : Str) : List ALNode → Nat
  | [] => 0
  | n :: rest => if n.node_id = id then 0 else rankAux id rest + 1

/-- Position of identifier `id` in the insertion order of `al`. -/
def rank (al : AdjacencyListTree) (id : Str) : Nat := rankAux id al.nodes

/-- The stored display name of identifier `id` (`[]` when absent). -/
def nameOf (al : AdjacencyListTree) (id : Str) : Str :=
  match al.find? id with
  | some n => n.name
  | none => []

/-- The stored parent identifier of `id` (`none` for roots and for absent
identifiers; only used for identifiers present in the tree). -/
def parentOfA (al : AdjacencyListTree) (id : Str) : Option Str :=
  match al.find? id with
  | some n => n.parent_id
  | none => none

/-- The chain of identifiers from a root down to `id`, following stored
parent pointers, with fuel. -/
def chainAux (al : AdjacencyListTree) : Nat → Str → List Str
  | 0, _ => []
  | k + 1, id =>
    match al.find? id with
    | none => []
    | some n =>
      match n.parent_id with
      | none => [id]
      | some p => chainAux al k p ++ [id]

/-- The root-to-`id` identifier chain (the fuel `al.size` is enough for all
identifiers of a tree built by successful `add_node` calls). -/
def chain (al : AdjacencyListTree) (id : Str) : List Str :=
  chainAux al al.size id

/-- The path the forward converter computes for `id`, defined by recursion
on parent pointers (with fuel), mirroring the `cur_path` computation of
`dfs_build` including its special case for a parent path equal to the
separator. -/
def specPathAux (al : AdjacencyListTree) (sep : Str) : Nat → Str → Str
  | 0, _ => []
  | k + 1, id =>
    match al.find? id with
    | none => []
    | some n =>
      match n.parent_id with
      | none => sep ++ id
      | some p =>
        let pp := specPathAux al sep k p
        if pp = sep then sep ++ id else pp ++ sep ++ id

/-- The path the forward converter computes for `id`. -/
def specPath (al : AdjacencyListTree) (sep : Str) (id : Str) : Str :=
  specPathAux al sep al.size id

/-- The output node the forward converter emits for identifier `id`. -/
def mkNode (al : AdjacencyListTree) (sep : Str) (id : Str) : MPNode :=
  ⟨id, specPath al sep id, nameOf al id⟩

/-- The delimiter-joined chain of a list of identifiers. -/
def joinSep (sep : Str) : List Str → Str
  | [] => []
  | [x] => x
  | x :: y :: rest => x ++ sep ++ joinSep sep (y :: rest)

mutual

/-- Pure mirror of `dfs_build`: the list of identifiers visited by the
depth-first traversal from `id`, `none` on fuel exhaustion. -/
def dfsIds (al : AdjacencyListTree) : Nat → Str → Option (List Str)
  | 0, _ => none
  | fuel + 1, id =>
    (dfsForestIds al fuel (childIds al (some id))).map (fun l => id :: l)
termination_by fuel _ => (fuel, 0)

/-- Pure mirror of `dfs_forest`: the identifiers visited by traversing each
member of `l` in order. -/
def dfsForestIds (al : AdjacencyListTree) : Nat → List Str → Option (List Str)
  | _, [] => some []
  | fuel, id :: rest =>
    match dfsIds al fuel id with
    | none => none
    | some l =>
      match dfsForestIds al fuel rest with
      | none => none
      | some r => some (l ++ r)
termination_by fuel l => (fuel, l.length + 1)

end

/-- Whether following parent pointers from `id` reaches a root within the
given fuel. -/
def reachesRootB (al : AdjacencyListTree) : Nat → Str → Bool
  | 0, _ => false
  | k + 1, id =>
    match al.find? id with
    | none => false
    | some n =>
      match n.parent_id with
      | none => true
      | some p => reachesRootB al k p

/-- `Desc al u v`: `v` is a node of `al` and `u` lies on the root-to-`v`
chain (i.e. `u` is an ancestor of `v` or `v` itself). -/
def Desc (al : AdjacencyListTree) (u v : Str) : Prop :=
  v ∈ ids al ∧ u ∈ chain al v

/-!  ## Basic container lemmas  -/

theorem find?_spec {al : AdjacencyListTree} {id : Str} {n : ALNode}
    (h : al.find? id = some n) : n.node_id = id ∧ n ∈ al.nodes := by
  refine ⟨?_, List.mem_of_find?_eq_some h⟩
  have := List.find?_some h
  simpa using this

theorem contains_iff {al : AdjacencyListTree} {id : Str} :
    al.contains id = true ↔ id ∈ ids al := by
  rw [AdjacencyListTree.contains, AdjacencyListTree.find?, List.find?_isSome, ids]
  simp only [List.mem_map, beq_iff_eq]

theorem contains_false_iff {al : AdjacencyListTree} {id : Str} :
    al.contains id = false ↔ id ∉ ids al := by
  rw [← contains_iff]
  cases al.contains id <;> simp

theorem find?_isSome_of_mem {al : AdjacencyListTree} {id : Str}
    (h : id ∈ ids al) : ∃ n, al.find? id = some n := by
  have := contains_iff.mpr h
  rw [AdjacencyListTree.contains] at this
  exact Option.isSome_iff_exists.mp this

theorem add_node_ok_iff {al al' : AdjacencyListTree} {id : Str} {p : Option Str}
    {nm : Str} :
    al.add_node id p nm = .ok al' ↔
      al.contains id = false ∧ (∀ q, p = some q → al.contains q = true) ∧
        al' = ⟨al.nodes ++ [ALNode.mk id p nm]⟩ := by
  cases hc : al.contains id
  · cases p with
    | none =>
      simp [AdjacencyListTree.add_node, AdjacencyListTree.add_node_st, hc]
      exact eq_comm
    | some q =>
      cases hq : al.contains q
      · simp [AdjacencyListTree.add_node, AdjacencyListTree.add_node_st, hc, hq]
      · simp [AdjacencyListTree.add_node, AdjacencyListTree.add_node_st, hc, hq]
        exact eq_comm
  · simp [AdjacencyListTree.add_node, AdjacencyListTree.add_node_st, hc]

theorem ids_mk_append {al : AdjacencyListTree} {n : ALNode} :
    ids ⟨al.nodes ++ [n]⟩ = ids al ++ [n.node_id] := by
  simp [ids]

theorem built_nodup {al : AdjacencyListTree} (h : Built al) : (ids al).Nodup := by
  induction h with
  | empty => simp [ids, AdjacencyListTree.empty]
  | step _ hok ih =>
    obtain ⟨hc, _, rfl⟩ := add_node_ok_iff.mp hok
    rw [ids_mk_append, List.nodup_append]
    refine ⟨ih, List.nodup_singleton _, ?_⟩
    intro x hx hx'
    rw [List.mem_singleton] at hx'
    subst hx'
    exact contains_false_iff.mp hc hx

/-!  ## Rank: position in insertion order  -/

theorem rankAux_lt_length {id : Str} {l : List ALNode}
    (h : id ∈ l.map (·.node_id)) : rankAux id l < l.length := by
  induction l with
  | nil => simp at h
  | cons n rest ih =>
    by_cases hn : n.node_id = id
    · simp [rankAux, hn]
    · simp only [List.map_cons, List.mem_cons] at h
      rcases h with h | h
      · exact absurd h.symm hn
      · simp only [rankAux, hn, if_false, List.length_cons]
        exact Nat.succ_lt_succ (ih h)

theorem rank_lt_size {al : AdjacencyListTree} {id : Str} (h : id ∈ ids al) :
    rank al id < al.size := rankAux_lt_length h

theorem rankAux_append_left {id : Str} {l l' : List ALNode}
    (h : id ∈ l.map (·.node_id)) : rankAux id (l ++ l') = rankAux id l := by
  induction l with
  | nil => simp at h
  | cons n rest ih =>
    by_cases hn : n.node_id = id
    · simp [rankAux, hn]
    · simp only [List.map_cons, List.mem_cons] at h
      rcases h with h | h
      · exact absurd h.symm hn
      · show (if n.node_id = id then 0 else rankAux id (rest ++ l') + 1) =
          if n.node_id = id then 0 else rankAux id rest + 1
        rw [if_neg hn, if_neg hn, ih h]

theorem rankAux_append_fresh {id : Str} {l : List ALNode}
    (h : id ∉ l.map (·.node_id)) {x : ALNode} (hx : x.node_id = id) :
    rankAux id (l ++ [x]) = l.length := by
  induction l with
  | nil => simp [rankAux, hx]
  | cons n rest ih =>
    simp only [List.map_cons, List.mem_cons] at h
    push_neg at h
    show (if n.node_id = id then 0 else rankAux id (rest ++ [x]) + 1) =
      rest.length + 1
    rw [if_neg (fun he => h.1 he.symm), ih h.2]

theorem find?_of_mem_nodup {l : List ALNode} (hn : (l.map (·.node_id)).Nodup)
    {x : ALNode} (hx : x ∈ l) :
    l.find? (fun n => n.node_id == x.node_id) = some x := by
  induction l with
  | nil => simp at hx
  | cons m rest ih =>
    simp only [List.map_cons, List.nodup_cons] at hn
    rw [List.mem_cons] at hx
    by_cases hm : m.node_id = x.node_id
    · have hxm : x = m := by
        rcases hx with hx | hx
        · exact hx
        · exact absurd (hm ▸ List.mem_map_of_mem (·.node_id) hx) hn.1
      subst hxm
      simp [List.find?]
    · rcases hx with hx | hx
      · exact absurd (hx ▸ rfl) hm
      · simp only [List.find?, beq_eq_false_iff_ne.mpr hm]
        exact ih hn.2 hx

theorem built_find?_of_mem {al : AdjacencyListTree} (hb : Built al) {x : ALNode}
    (hx : x ∈ al.nodes) : al.find? x.node_id = some x :=
  find?_of_mem_nodup (built_nodup hb) hx

theorem rank_parent_lt {al : AdjacencyListTree} (hb : Built al) :
    ∀ {v p : Str} {n : ALNode}, al.find? v = some n → n.parent_id = some p →
      p ∈ ids al ∧ rank al p < rank al v := by
  induction hb with
  | empty =>
    intro v p n hf
    simp [AdjacencyListTree.find?, AdjacencyListTree.empty] at hf
  | step hbp hok ih =>
    obtain ⟨hc, hpar, rfl⟩ := add_node_ok_iff.mp hok
    intro v p n hf hp
    rw [AdjacencyListTree.find?, List.find?_append] at hf
    rename_i al₀ id₀ p₀ nm₀
    cases hfo : al₀.nodes.find? (fun nd => nd.node_id == v) with
    | some m =>
      rw [hfo] at hf
      have hmn : m = n := by simpa [Option.or] using hf
      subst hmn
      have hold : al₀.find? v = some m := hfo
      obtain ⟨hpm, hplt⟩ := ih hold hp
      have hvm : v ∈ ids al₀ := by
        obtain ⟨hid, hmem⟩ := find?_spec hold
        exact hid ▸ List.mem_map_of_mem (·.node_id) hmem
      refine ⟨by rw [ids_mk_append]; exact List.mem_append_left _ hpm, ?_⟩
      show rankAux p (al₀.nodes ++ _) < rankAux v (al₀.nodes ++ _)
      rw [rankAux_append_left hpm, rankAux_append_left hvm]
      exact hplt
    | none =>
      rw [hfo] at hf
      simp only [Option.or] at hf
      by_cases hid : id₀ = v
      · rw [List.find?_cons_of_pos _ (by simp [hid])] at hf
        obtain rfl : ALNode.mk id₀ p₀ nm₀ = n := by injection hf
        have hp' : p₀ = some p := hp
        have hpm : p ∈ ids al₀ := contains_iff.mp (hpar p hp')
        refine ⟨by rw [ids_mk_append]; exact List.mem_append_left _ hpm, ?_⟩
        show rankAux p (al₀.nodes ++ _) < rankAux v (al₀.nodes ++ _)
        have hfresh : v ∉ ids al₀ := by
          rw [← hid]; exact contains_false_iff.mp hc
        rw [rankAux_append_left hpm, rankAux_append_fresh hfresh hid]
        exact rankAux_lt_length hpm
      · rw [List.find?_cons_of_neg _ (by simp [hid]), List.find?_nil] at hf
        exact absurd hf (by simp)


/-!  ## The root-to-node chain and the canonical path  -/

theorem mem_ids_of_find? {al : AdjacencyListTree} {v : Str} {n : ALNode}
    (h : al.find? v = some n) : v ∈ ids al := by
  obtain ⟨hid, hmem⟩ := find?_spec h
  exact hid ▸ List.mem_map_of_mem (·.node_id) hmem

theorem chainAux_stable {al : AdjacencyListTree} (hb : Built al) :
    ∀ r : Nat, ∀ v : Str, rank al v = r → v ∈ ids al → ∀ k k' : Nat,
      r < k → r < k' → chainAux al k v = chainAux al k' v := by
  intro r
  induction r using Nat.strong_induction_on with
  | _ r ih =>
    intro v hr hv k k' hk hk'
    obtain ⟨k, rfl⟩ : ∃ m, k = m + 1 := ⟨k - 1, by omega⟩
    obtain ⟨k', rfl⟩ : ∃ m, k' = m + 1 := ⟨k' - 1, by omega⟩
    obtain ⟨n, hn⟩ := find?_isSome_of_mem hv
    simp only [chainAux, hn]
    cases hp : n.parent_id with
    | none => rfl
    | some p =>
      obtain ⟨hpm, hplt⟩ := rank_parent_lt hb hn hp
      rw [hr] at hplt
      show chainAux al k p ++ [v] = chainAux al k' p ++ [v]
      rw [ih (rank al p) hplt p rfl hpm k k' (by omega) (by omega)]

theorem specPathAux_stable {al : AdjacencyListTree} (hb : Built al) (sep : Str) :
    ∀ r : Nat, ∀ v : Str, rank al v = r → v ∈ ids al → ∀ k k' : Nat,
      r < k → r < k' → specPathAux al sep k v = specPathAux al sep k' v := by
  intro r
  induction r using Nat.strong_induction_on with
  | _ r ih =>
    intro v hr hv k k' hk hk'
    obtain ⟨k, rfl⟩ : ∃ m, k = m + 1 := ⟨k - 1, by omega⟩
    obtain ⟨k', rfl⟩ : ∃ m, k' = m + 1 := ⟨k' - 1, by omega⟩
    obtain ⟨n, hn⟩ := find?_isSome_of_mem hv
    simp only [specPathAux, hn]
    cases hp : n.parent_id with
    | none => rfl
    | some p =>
      obtain ⟨hpm, hplt⟩ := rank_parent_lt hb hn hp
      rw [hr] at hplt
      show (if specPathAux al sep k p = sep then sep ++ v
          else specPathAux al sep k p ++ sep ++ v) =
        if specPathAux al sep k' p = sep then sep ++ v
          else specPathAux al sep k' p ++ sep ++ v
      rw [ih (rank al p) hplt p rfl hpm k k' (by omega) (by omega)]

theorem chain_def_root {al : AdjacencyListTree} {v : Str} {n : ALNode}
    (hn : al.find? v = some n) (hp : n.parent_id = none) : chain al v = [v] := by
  have hv : v ∈ ids al := mem_ids_of_find? hn
  have hvlt := rank_lt_size hv
  obtain ⟨m, hm⟩ : ∃ m, al.size = m + 1 := ⟨al.size - 1, by omega⟩
  rw [chain, hm]
  simp only [chainAux, hn, hp]

theorem chain_def_parent {al : AdjacencyListTree} (hb : Built al) {v p : Str}
    {n : ALNode} (hn : al.find? v = some n) (hp : n.parent_id = some p) :
    chain al v = chain al p ++ [v] := by
  have hv : v ∈ ids al := mem_ids_of_find? hn
  obtain ⟨hpm, hplt⟩ := rank_parent_lt hb hn hp
  have hvlt := rank_lt_size hv
  obtain ⟨m, hm⟩ : ∃ m, al.size = m + 1 := ⟨al.size - 1, by omega⟩
  rw [chain, hm]
  simp only [chainAux, hn, hp]
  rw [chainAux_stable hb (rank al p) p rfl hpm m al.size (by omega) (by omega)]
  rfl

theorem specPath_def_root {al : AdjacencyListTree} (sep : Str) {v : Str}
    {n : ALNode} (hn : al.find? v = some n) (hp : n.parent_id = none) :
    specPath al sep v = sep ++ v := by
  have hv : v ∈ ids al := mem_ids_of_find? hn
  have hvlt := rank_lt_size hv
  obtain ⟨m, hm⟩ : ∃ m, al.size = m + 1 := ⟨al.size - 1, by omega⟩
  rw [specPath, hm]
  simp only [specPathAux, hn, hp]

theorem specPath_def_parent {al : AdjacencyListTree} (hb : Built al) (sep : Str)
    {v p : Str} {n : ALNode} (hn : al.find? v = some n)
    (hp : n.parent_id = some p) :
    specPath al sep v =
      if specPath al sep p = sep then sep ++ v
      else specPath al sep p ++ sep ++ v := by
  have hv : v ∈ ids al := mem_ids_of_find? hn
  obtain ⟨hpm, hplt⟩ := rank_parent_lt hb hn hp
  have hvlt := rank_lt_size hv
  obtain ⟨m, hm⟩ : ∃ m, al.size = m + 1 := ⟨al.size - 1, by omega⟩
  rw [specPath, hm]
  simp only [specPathAux, hn, hp]
  rw [specPathAux_stable hb sep (rank al p) p rfl hpm m al.size (by omega)
    (by omega)]
  rfl
/-!  ## Structure of chains  -/

theorem chain_getLast {al : AdjacencyListTree} (hb : Built al) {v : Str}
    (hv : v ∈ ids al) :
    chain al v ≠ [] ∧ (chain al v).getLast? = some v := by
  obtain ⟨n, hn⟩ := find?_isSome_of_mem hv
  cases hp : n.parent_id with
  | none =>
    rw [chain_def_root hn hp]
    exact ⟨by simp, rfl⟩
  | some p =>
    rw [chain_def_parent hb hn hp]
    refine ⟨by simp, ?_⟩
    rw [List.getLast?_append]
    rfl

theorem chain_mem_rank {al : AdjacencyListTree} (hb : Built al) :
    ∀ r v, rank al v = r → v ∈ ids al →
      ∀ u ∈ chain al v, u ∈ ids al ∧ rank al u ≤ rank al v := by
  intro r
  induction r using Nat.strong_induction_on with
  | _ r ih =>
    intro v hr hv u hu
    obtain ⟨n, hn⟩ := find?_isSome_of_mem hv
    cases hp : n.parent_id with
    | none =>
      rw [chain_def_root hn hp] at hu
      rw [List.mem_singleton] at hu
      subst hu
      exact ⟨hv, le_refl _⟩
    | some p =>
      rw [chain_def_parent hb hn hp] at hu
      obtain ⟨hpm, hplt⟩ := rank_parent_lt hb hn hp
      rcases List.mem_append.mp hu with hu | hu
      · obtain ⟨h1, h2⟩ := ih (rank al p) (by omega) p rfl hpm u hu
        exact ⟨h1, by omega⟩
      · rw [List.mem_singleton] at hu
        subst hu
        exact ⟨hv, le_refl _⟩

theorem chain_prefix {al : AdjacencyListTree} (hb : Built al) :
    ∀ r v, rank al v = r → v ∈ ids al →
      ∀ u ∈ chain al v, chain al u <+: chain al v := by
  intro r
  induction r using Nat.strong_induction_on with
  | _ r ih =>
    intro v hr hv u hu
    obtain ⟨n, hn⟩ := find?_isSome_of_mem hv
    cases hp : n.parent_id with
    | none =>
      have huv : u = v := by
        rw [chain_def_root hn hp] at hu
        simpa using hu
      subst huv
      exact List.prefix_refl _
    | some p =>
      rw [chain_def_parent hb hn hp] at hu
      obtain ⟨hpm, hplt⟩ := rank_parent_lt hb hn hp
      rcases List.mem_append.mp hu with hu | hu
      · have := ih (rank al p) (by omega) p rfl hpm u hu
        rw [chain_def_parent hb hn hp]
        exact this.trans (List.prefix_append _ _)
      · rw [List.mem_singleton] at hu
        subst hu
        exact List.prefix_refl _

theorem chain_head_root {al : AdjacencyListTree} (hb : Built al) :
    ∀ r v, rank al v = r → v ∈ ids al →
      ∃ rt nr, (chain al v).head? = some rt ∧ al.find? rt = some nr ∧
        nr.parent_id = none := by
  intro r
  induction r using Nat.strong_induction_on with
  | _ r ih =>
    intro v hr hv
    obtain ⟨n, hn⟩ := find?_isSome_of_mem hv
    cases hp : n.parent_id with
    | none =>
      refine ⟨v, n, ?_, hn, hp⟩
      rw [chain_def_root hn hp]
      rfl
    | some p =>
      obtain ⟨hpm, hplt⟩ := rank_parent_lt hb hn hp
      obtain ⟨rt, nr, h1, h2, h3⟩ := ih (rank al p) (by omega) p rfl hpm
      refine ⟨rt, nr, ?_, h2, h3⟩
      rw [chain_def_parent hb hn hp]
      obtain ⟨hne, -⟩ := chain_getLast hb hpm
      obtain ⟨a, t, hat⟩ := List.exists_cons_of_ne_nil hne
      rw [hat] at h1 ⊢
      simpa using h1

/-!  ## Sorted child groups  -/

theorem mem_childIds_iff {al : AdjacencyListTree} {π : Option Str} {c : Str} :
    c ∈ childIds al π ↔ ∃ n ∈ al.nodes, n.parent_id = π ∧ n.node_id = c := by
  rw [childIds, List.mem_insertionSort]
  simp only [List.mem_map, List.mem_filter, beq_iff_eq]
  constructor
  · rintro ⟨n, ⟨hn, hpi⟩, hc⟩
    exact ⟨n, hn, hpi, hc⟩
  · rintro ⟨n, hn, hpi, hc⟩
    exact ⟨n, ⟨hn, hpi⟩, hc⟩

theorem childIds_nodup {al : AdjacencyListTree} (hb : Built al) (π : Option Str) :
    (childIds al π).Nodup := by
  have h1 : ((al.nodes.filter fun n => n.parent_id == π).map
      (·.node_id)).Sublist (ids al) :=
    List.Sublist.map _ (List.filter_sublist _)
  have h2 := List.Nodup.sublist h1 (built_nodup hb)
  exact ((List.perm_insertionSort _ _).nodup_iff).mpr h2

theorem childIds_find? {al : AdjacencyListTree} (hb : Built al) {π : Option Str}
    {c : Str} (hc : c ∈ childIds al π) :
    ∃ n, al.find? c = some n ∧ n.parent_id = π := by
  obtain ⟨n, hn, hpi, hcid⟩ := mem_childIds_iff.mp hc
  exact ⟨n, by rw [← hcid]; exact built_find?_of_mem hb hn, hpi⟩

theorem childIds_mem_ids {al : AdjacencyListTree} {π : Option Str} {c : Str}
    (hc : c ∈ childIds al π) : c ∈ ids al := by
  obtain ⟨n, hn, -, hcid⟩ := mem_childIds_iff.mp hc
  exact hcid ▸ List.mem_map_of_mem _ hn

theorem mem_childIds_of_find? {al : AdjacencyListTree} (hb : Built al)
    {c u : Str} {n : ALNode} (hn : al.find? c = some n)
    (hp : n.parent_id = some u) : c ∈ childIds al (some u) := by
  apply mem_childIds_iff.mpr
  obtain ⟨hnid, hnmem⟩ := find?_spec hn
  exact ⟨n, hnmem, hp, hnid⟩

/-!  ## Descendants  -/

theorem desc_self {al : AdjacencyListTree} (hb : Built al) {v : Str}
    (hv : v ∈ ids al) : Desc al v v := by
  refine ⟨hv, ?_⟩
  obtain ⟨hne, hlast⟩ := chain_getLast hb hv
  exact List.mem_of_getLast?_eq_some hlast

theorem desc_mem_ids {al : AdjacencyListTree} (hb : Built al) {u v : Str}
    (h : Desc al u v) : u ∈ ids al ∧ v ∈ ids al :=
  ⟨(chain_mem_rank hb (rank al v) v rfl h.1 u h.2).1, h.1⟩

theorem desc_step {al : AdjacencyListTree} (hb : Built al) :
    ∀ r v, rank al v = r → ∀ u, Desc al u v → u ≠ v →
      ∃ c ∈ childIds al (some u), Desc al c v := by
  intro r
  induction r using Nat.strong_induction_on with
  | _ r ih =>
    rintro v hr u ⟨hv, hu⟩ hne
    obtain ⟨n, hn⟩ := find?_isSome_of_mem hv
    cases hp : n.parent_id with
    | none =>
      rw [chain_def_root hn hp] at hu
      exact absurd (List.mem_singleton.mp hu) hne
    | some p =>
      rw [chain_def_parent hb hn hp] at hu
      obtain ⟨hpm, hplt⟩ := rank_parent_lt hb hn hp
      rcases List.mem_append.mp hu with hu | hu
      · by_cases hpu : p = u
        · subst hpu
          exact ⟨v, mem_childIds_of_find? hb hn hp, desc_self hb hv⟩
        · obtain ⟨c, hc1, hc2⟩ := ih (rank al p) (by omega) p rfl u ⟨hpm, hu⟩
            (fun h => hpu h.symm)
          refine ⟨c, hc1, hv, ?_⟩
          rw [chain_def_parent hb hn hp]
          exact List.mem_append_left _ hc2.2
      · exact absurd (List.mem_singleton.mp hu) hne

theorem desc_of_child {al : AdjacencyListTree} (hb : Built al) {u c v : Str}
    (hc : c ∈ childIds al (some u)) (hd : Desc al c v) : Desc al u v := by
  obtain ⟨nc, hnc, hpc⟩ := childIds_find? hb hc
  obtain ⟨hv, hcv⟩ := hd
  refine ⟨hv, ?_⟩
  have hpref := chain_prefix hb (rank al v) v rfl hv c hcv
  have humem : u ∈ chain al c := by
    rw [chain_def_parent hb hnc hpc]
    refine List.mem_append_left _ ?_
    obtain ⟨hum, -⟩ := rank_parent_lt hb hnc hpc
    exact (desc_self hb hum).2
  exact hpref.subset humem

theorem chain_child_unique {al : AdjacencyListTree} (hb : Built al) {v : Str}
    (hv : v ∈ ids al) {c c' u : Str} (hc : c ∈ chain al v)
    (hc' : c' ∈ chain al v) {n n' : ALNode} (hn : al.find? c = some n)
    (hn' : al.find? c' = some n') (hp : n.parent_id = some u)
    (hp' : n'.parent_id = some u) : c = c' := by
  have h1 := chain_prefix hb (rank al v) v rfl hv c hc
  have h2 := chain_prefix hb (rank al v) v rfl hv c' hc'
  rw [chain_def_parent hb hn hp] at h1
  rw [chain_def_parent hb hn' hp'] at h2
  have hlen : (chain al u ++ [c]).length = (chain al u ++ [c']).length := by simp
  have := List.IsPrefix.eq_of_length
    (List.prefix_of_prefix_length_le h1 h2 (le_of_eq hlen)) hlen
  simpa using this

theorem chain_root_unique {al : AdjacencyListTree} (hb : Built al) {v : Str}
    (hv : v ∈ ids al) {rt rt' : Str} (hr : rt ∈ chain al v)
    (hr' : rt' ∈ chain al v) {n n' : ALNode} (hn : al.find? rt = some n)
    (hn' : al.find? rt' = some n') (hp : n.parent_id = none)
    (hp' : n'.parent_id = none) : rt = rt' := by
  have h1 := chain_prefix hb (rank al v) v rfl hv rt hr
  have h2 := chain_prefix hb (rank al v) v rfl hv rt' hr'
  rw [chain_def_root hn hp] at h1
  rw [chain_def_root hn' hp'] at h2
  have := List.IsPrefix.eq_of_length
    (List.prefix_of_prefix_length_le h1 h2 (by simp)) (by simp)
  simpa using this

/-!  ## The pure traversal: sufficiency, membership, distinctness  -/

theorem dfsForestIds_nil (al : AdjacencyListTree) (fuel : Nat) :
    dfsForestIds al fuel [] = some [] := by
  cases fuel <;> simp [dfsForestIds]

theorem desc_iff_child {al : AdjacencyListTree} (hb : Built al) {c : Str}
    (hc : c ∈ ids al) (u : Str) :
    Desc al c u ↔ u = c ∨ ∃ d ∈ childIds al (some c), Desc al d u := by
  constructor
  · intro hd
    by_cases he : u = c
    · exact Or.inl he
    · exact Or.inr (desc_step hb (rank al u) u rfl c hd (fun h => he h.symm))
  · rintro (rfl | ⟨d, hd1, hd2⟩)
    · exact desc_self hb hc
    · exact desc_of_child hb hd1 hd2

theorem desc_rank_le {al : AdjacencyListTree} (hb : Built al) {u v : Str}
    (h : Desc al u v) : rank al u ≤ rank al v :=
  (chain_mem_rank hb (rank al v) v rfl h.1 u h.2).2

theorem dfsForestIds_isSome {al : AdjacencyListTree} (hb : Built al) :
    ∀ fuel : Nat, ∀ l : List Str,
      (∀ c ∈ l, c ∈ ids al ∧ al.size - rank al c ≤ fuel) →
      ∃ L, dfsForestIds al fuel l = some L := by
  intro fuel
  induction fuel using Nat.strong_induction_on with
  | _ fuel ihf =>
    intro l
    induction l with
    | nil => exact fun _ => ⟨[], dfsForestIds_nil al fuel⟩
    | cons c rest ihl =>
      intro hl
      obtain ⟨hcm, hcf⟩ := hl c (List.mem_cons_self _ _)
      have h1 : 1 ≤ al.size - rank al c := by
        have := rank_lt_size hcm
        omega
      obtain ⟨fuel, rfl⟩ : ∃ m, fuel = m + 1 := ⟨fuel - 1, by omega⟩
      have hch : ∀ d ∈ childIds al (some c),
          d ∈ ids al ∧ al.size - rank al d ≤ fuel := by
        intro d hd
        obtain ⟨nd, hnd, hpd⟩ := childIds_find? hb hd
        refine ⟨childIds_mem_ids hd, ?_⟩
        obtain ⟨-, hlt⟩ := rank_parent_lt hb hnd hpd
        omega
      obtain ⟨Lc, hLc⟩ := ihf fuel (by omega) (childIds al (some c)) hch
      obtain ⟨Lr, hLr⟩ := ihl (fun d hd => hl d (List.mem_cons_of_mem _ hd))
      refine ⟨(c :: Lc) ++ Lr, ?_⟩
      simp only [dfsForestIds, dfsIds, hLc, hLr, Option.map_some]
      rfl

theorem dfsForestIds_mem {al : AdjacencyListTree} (hb : Built al) :
    ∀ fuel : Nat, ∀ l L : List Str,
      dfsForestIds al fuel l = some L → (∀ c ∈ l, c ∈ ids al) →
      ∀ u, u ∈ L ↔ ∃ c ∈ l, Desc al c u := by
  intro fuel
  induction fuel using Nat.strong_induction_on with
  | _ fuel ihf =>
    intro l
    induction l with
    | nil =>
      intro L hL _ u
      rw [dfsForestIds_nil] at hL
      injection hL with hL
      subst hL
      simp
    | cons c rest ihl =>
      intro L hL hmem u
      cases fuel with
      | zero =>
        simp only [dfsForestIds, dfsIds] at hL
        exact Option.noConfusion hL
      | succ m =>
        simp only [dfsForestIds] at hL
        cases hc : dfsIds al (m + 1) c with
        | none => rw [hc] at hL; exact absurd hL (by simp)
        | some lc =>
          rw [hc] at hL
          cases hr : dfsForestIds al (m + 1) rest with
          | none => rw [hr] at hL; exact absurd hL (by simp)
          | some lr =>
            rw [hr] at hL
            injection hL with hL
            subst hL
            have hcm : c ∈ ids al := hmem c (List.mem_cons_self _ _)
            simp only [dfsIds] at hc
            obtain ⟨Lc, hLc, rfl⟩ : ∃ Lc,
                dfsForestIds al m (childIds al (some c)) = some Lc ∧
                  lc = c :: Lc := by
              cases hfc : dfsForestIds al m (childIds al (some c)) with
              | none => rw [hfc] at hc; exact absurd hc (by simp)
              | some Lc =>
                rw [hfc] at hc
                simp only [Option.map] at hc
                injection hc with hc
                exact ⟨Lc, rfl, hc.symm⟩
            have hmemc := ihf m (by omega) (childIds al (some c)) Lc hLc
              (fun d hd => childIds_mem_ids hd)
            have hmemr := ihl lr hr (fun d hd => hmem d (List.mem_cons_of_mem _ hd))
            rw [List.mem_append, List.mem_cons, hmemc u, hmemr u]
            rw [← desc_iff_child hb hcm u]
            constructor
            · rintro (h | ⟨d, hd1, hd2⟩)
              · exact ⟨c, List.mem_cons_self _ _, h⟩
              · exact ⟨d, List.mem_cons_of_mem _ hd1, hd2⟩
            · rintro ⟨d, hd1, hd2⟩
              rcases List.mem_cons.mp hd1 with rfl | hd1
              · exact Or.inl hd2
              · exact Or.inr ⟨d, hd1, hd2⟩

theorem dfsIds_mem {al : AdjacencyListTree} (hb : Built al) {fuel : Nat}
    {c : Str} {L : List Str} (h : dfsIds al fuel c = some L) (hc : c ∈ ids al) :
    ∀ u, u ∈ L ↔ Desc al c u := by
  intro u
  cases fuel with
  | zero =>
    simp only [dfsIds] at h
    exact Option.noConfusion h
  | succ m =>
    simp only [dfsIds] at h
    cases hfc : dfsForestIds al m (childIds al (some c)) with
    | none => rw [hfc] at h; exact absurd h (by simp)
    | some Lc =>
      rw [hfc] at h
      simp only [Option.map] at h
      injection h with h
      subst h
      rw [List.mem_cons,
        dfsForestIds_mem hb m (childIds al (some c)) Lc hfc
          (fun d hd => childIds_mem_ids hd) u]
      exact (desc_iff_child hb hc u).symm

theorem dfsForestIds_nodup {al : AdjacencyListTree} (hb : Built al) :
    ∀ fuel : Nat, ∀ l L : List Str,
      dfsForestIds al fuel l = some L → l.Nodup →
      (∀ c ∈ l, c ∈ ids al) →
      (∀ c ∈ l, ∀ c' ∈ l, c ≠ c' →
        ∀ u, Desc al c u → Desc al c' u → False) →
      L.Nodup := by
  intro fuel
  induction fuel using Nat.strong_induction_on with
  | _ fuel ihf =>
    intro l
    induction l with
    | nil =>
      intro L hL _ _ _
      rw [dfsForestIds_nil] at hL
      injection hL with hL
      subst hL
      exact List.nodup_nil
    | cons c rest ihl =>
      intro L hL hnd hmem hdisj
      cases fuel with
      | zero =>
        simp only [dfsForestIds, dfsIds] at hL
        exact Option.noConfusion hL
      | succ m =>
        simp only [dfsForestIds] at hL
        cases hc : dfsIds al (m + 1) c with
        | none => rw [hc] at hL; exact absurd hL (by simp)
        | some lc =>
          rw [hc] at hL
          cases hr : dfsForestIds al (m + 1) rest with
          | none => rw [hr] at hL; exact absurd hL (by simp)
          | some lr =>
            rw [hr] at hL
            injection hL with hL
            subst hL
            have hcm : c ∈ ids al := hmem c (List.mem_cons_self _ _)
            rw [List.nodup_cons] at hnd
            obtain ⟨Lc, hLc, rfl⟩ : ∃ Lc,
                dfsForestIds al m (childIds al (some c)) = some Lc ∧
                  lc = c :: Lc := by
              simp only [dfsIds] at hc
              cases hfc : dfsForestIds al m (childIds al (some c)) with
              | none => rw [hfc] at hc; exact absurd hc (by simp)
              | some Lc =>
                rw [hfc] at hc
                simp only [Option.map] at hc
                injection hc with hc
                exact ⟨Lc, rfl, hc.symm⟩
            have hmemLc := dfsForestIds_mem hb m (childIds al (some c)) Lc hLc
              (fun d hd => childIds_mem_ids hd)
            have hmemlc : ∀ u, u ∈ c :: Lc ↔ Desc al c u :=
              dfsIds_mem hb hc hcm
            have hmemlr := dfsForestIds_mem hb (m + 1) rest lr hr
              (fun d hd => hmem d (List.mem_cons_of_mem _ hd))
            rw [List.nodup_append]
            refine ⟨?_, ?_, ?_⟩
            · -- c :: Lc is nodup
              rw [List.nodup_cons]
              constructor
              · intro hcLc
                obtain ⟨d, hd1, hd2⟩ := (hmemLc c).mp hcLc
                obtain ⟨nd, hnd, hpd⟩ := childIds_find? hb hd1
                obtain ⟨-, hlt⟩ := rank_parent_lt hb hnd hpd
                have := desc_rank_le hb hd2
                omega
              · refine ihf m (by omega) (childIds al (some c)) Lc hLc
                  (childIds_nodup hb _) (fun d hd => childIds_mem_ids hd) ?_
                intro d hd d' hd' hne u hdu hdu'
                obtain ⟨nd, hnd, hpd⟩ := childIds_find? hb hd
                obtain ⟨nd', hnd', hpd'⟩ := childIds_find? hb hd'
                exact hne (chain_child_unique hb hdu.1 hdu.2 hdu'.2 hnd hnd'
                  hpd hpd')
            · exact ihl lr hr hnd.2
                (fun d hd => hmem d (List.mem_cons_of_mem _ hd))
                (fun d hd d' hd' => hdisj d (List.mem_cons_of_mem _ hd) d'
                  (List.mem_cons_of_mem _ hd'))
            · -- disjointness of the c-subtree and the rest
              intro u hu hu'
              have hdu : Desc al c u := (hmemlc u).mp hu
              obtain ⟨d, hd1, hd2⟩ := (hmemlr u).mp hu'
              have hne : c ≠ d := fun he => hnd.1 (he ▸ hd1)
              exact hdisj c (List.mem_cons_self _ _) d
                (List.mem_cons_of_mem _ hd1) hne u hdu hd2

/-- The complete forward traversal: for a built tree, the traversal from the
sorted roots succeeds and visits exactly the tree's identifiers, each once. -/
theorem traversal_exists {al : AdjacencyListTree} (hb : Built al) :
    ∃ L, dfsForestIds al al.size (childIds al none) = some L ∧ L.Nodup ∧
      (∀ u, u ∈ L ↔ u ∈ ids al) ∧ L.Perm (ids al) := by
  obtain ⟨L, hL⟩ := dfsForestIds_isSome hb al.size (childIds al none)
    (fun c hc => ⟨childIds_mem_ids hc, by omega⟩)
  have hrootdisj : ∀ c ∈ childIds al none, ∀ c' ∈ childIds al none, c ≠ c' →
      ∀ u, Desc al c u → Desc al c' u → False := by
    intro c hc c' hc' hne u hdu hdu'
    obtain ⟨nc, hnc, hpc⟩ := childIds_find? hb hc
    obtain ⟨nc', hnc', hpc'⟩ := childIds_find? hb hc'
    exact hne (chain_root_unique hb hdu.1 hdu.2 hdu'.2 hnc hnc' hpc hpc')
  have hnd : L.Nodup := dfsForestIds_nodup hb al.size (childIds al none) L hL
    (childIds_nodup hb _) (fun c hc => childIds_mem_ids hc) hrootdisj
  have hmem : ∀ u, u ∈ L ↔ u ∈ ids al := by
    intro u
    rw [dfsForestIds_mem hb al.size (childIds al none) L hL
      (fun c hc => childIds_mem_ids hc) u]
    constructor
    · rintro ⟨c, -, hd⟩
      exact hd.1
    · intro hu
      obtain ⟨rt, nr, h1, h2, h3⟩ := chain_head_root hb (rank al u) u rfl hu
      refine ⟨rt, ?_, hu, ?_⟩
      · exact mem_childIds_iff.mpr ⟨nr, (find?_spec h2).2, h3, (find?_spec h2).1⟩
      · exact List.mem_of_mem_head? h1
  exact ⟨L, hL, hnd, hmem,
    (List.perm_ext_iff_of_nodup hnd (built_nodup hb)).mpr hmem⟩

/-!  ## Running the depth-first build  -/

theorem specPath_startsWith {al : AdjacencyListTree} (hb : Built al) (sep : Str) :
    ∀ r v, rank al v = r → v ∈ ids al → sep <+: specPath al sep v := by
  intro r
  induction r using Nat.strong_induction_on with
  | _ r ih =>
    intro v hr hv
    obtain ⟨n, hn⟩ := find?_isSome_of_mem hv
    cases hp : n.parent_id with
    | none =>
      rw [specPath_def_root sep hn hp]
      exact List.prefix_append _ _
    | some p =>
      rw [specPath_def_parent hb sep hn hp]
      obtain ⟨hpm, hplt⟩ := rank_parent_lt hb hn hp
      by_cases he : specPath al sep p = sep
      · rw [if_pos he]
        exact List.prefix_append _ _
      · rw [if_neg he]
        have h1 := ih (rank al p) (by omega) p rfl hpm
        exact (h1.trans (List.prefix_append _ sep)).trans (List.prefix_append _ v)

theorem mp_add_node_ok {mp : MaterializedPathTree} {c pth nm : Str}
    (hc : mp.contains c = false) (hpre : mp.sep.isPrefixOf pth = true) :
    mp.add_node c pth nm = .ok ⟨mp.sep, mp.nodes ++ [MPNode.mk c pth nm]⟩ := by
  rw [MaterializedPathTree.add_node, hc, hpre]
  rfl

theorem mp_contains_append_false {sep : Str} {nodes xs : List MPNode} {u : Str} :
    MaterializedPathTree.contains ⟨sep, nodes ++ xs⟩ u = false ↔
      MaterializedPathTree.contains ⟨sep, nodes⟩ u = false ∧
        ∀ x ∈ xs, x.node_id ≠ u := by
  simp only [MaterializedPathTree.contains, MaterializedPathTree.find?,
    List.find?_append, Option.isSome_or, Bool.or_eq_false_iff]
  constructor
  · rintro ⟨h1, h2⟩
    refine ⟨h1, fun x hx he => ?_⟩
    have hne : xs.find? (fun n => n.node_id == u) ≠ none := by
      intro hn
      rw [List.find?_eq_none] at hn
      exact hn x hx (by simp [he])
    rcases Option.ne_none_iff_exists'.mp hne with ⟨y, hy⟩
    rw [hy] at h2
    simp at h2
  · rintro ⟨h1, h2⟩
    refine ⟨h1, ?_⟩
    have hfn : xs.find? (fun n => n.node_id == u) = none := by
      rw [List.find?_eq_none]
      intro x hx hbe
      exact h2 x hx (by simpa using hbe)
    rw [hfn]
    rfl

theorem mkNode_node_id (al : AdjacencyListTree) (sep u : Str) :
    (mkNode al sep u).node_id = u := rfl

theorem dfs_forest_run {al : AdjacencyListTree} (hb : Built al) (sep : Str) :
    ∀ fuel : Nat, ∀ (l : List Str) (π : Option Str) (pp : Str)
      (mp : MaterializedPathTree) (L : List Str),
      dfsForestIds al fuel l = some L →
      (∀ c ∈ l, ∃ nc, al.find? c = some nc ∧ nc.parent_id = π) →
      (match π with
        | none => pp = sep
        | some q => pp = specPath al sep q) →
      mp.sep = sep →
      (∀ u ∈ L, mp.contains u = false) →
      L.Nodup →
      dfs_forest al sep fuel l pp mp =
        .ok ⟨sep, mp.nodes ++ L.map (mkNode al sep)⟩ := by
  intro fuel
  induction fuel using Nat.strong_induction_on with
  | _ fuel ihf =>
    intro l
    induction l with
    | nil =>
      intro π pp mp L hL hsib hpp hsep hfree hnd
      rw [dfsForestIds_nil] at hL
      injection hL with hL
      subst hL
      cases mp with
      | mk msep mnodes =>
        simp only [MaterializedPathTree.sep] at hsep
        subst hsep
        show (Except.ok ⟨msep, mnodes⟩ : Except TreeError MaterializedPathTree) =
          .ok ⟨msep, mnodes ++ []⟩
        rw [List.append_nil]
    | cons c rest ihl =>
      intro π pp mp L hL hsib hpp hsep hfree hnd
      cases fuel with
      | zero =>
        simp only [dfsForestIds, dfsIds] at hL
        exact Option.noConfusion hL
      | succ m =>
        simp only [dfsForestIds] at hL
        cases hc : dfsIds al (m + 1) c with
        | none => rw [hc] at hL; exact absurd hL (by simp)
        | some lc =>
          rw [hc] at hL
          cases hr : dfsForestIds al (m + 1) rest with
          | none => rw [hr] at hL; exact absurd hL (by simp)
          | some lr =>
            rw [hr] at hL
            injection hL with hL
            subst hL
            obtain ⟨Lc, hLc, rfl⟩ : ∃ Lc,
                dfsForestIds al m (childIds al (some c)) = some Lc ∧
                  lc = c :: Lc := by
              simp only [dfsIds] at hc
              cases hfc : dfsForestIds al m (childIds al (some c)) with
              | none => rw [hfc] at hc; exact absurd hc (by simp)
              | some Lc =>
                rw [hfc] at hc
                simp only [Option.map] at hc
                injection hc with hc
                exact ⟨Lc, rfl, hc.symm⟩
            obtain ⟨nc, hnc, hπ⟩ := hsib c (List.mem_cons_self _ _)
            have hcm : c ∈ ids al := mem_ids_of_find? hnc
            have hcur : (if pp = sep then sep ++ c else pp ++ sep ++ c) =
                specPath al sep c := by
              cases π with
              | none =>
                have hpp' : pp = sep := hpp
                rw [hpp', if_pos rfl, specPath_def_root sep hnc hπ]
              | some q =>
                have hpp' : pp = specPath al sep q := hpp
                rw [specPath_def_parent hb sep hnc hπ, hpp']
            obtain ⟨hndc, hndr, hdisj⟩ := List.nodup_append.mp hnd
            have hfree1 : mp.contains c = false :=
              hfree c (List.mem_append_left _ (List.mem_cons_self _ _))
            have hpre : mp.sep.isPrefixOf (specPath al sep c) = true := by
              rw [hsep, List.isPrefixOf_iff_prefix]
              exact specPath_startsWith hb sep (rank al c) c rfl hcm
            have hmk : MPNode.mk c (specPath al sep c) nc.name =
                mkNode al sep c := by
              simp [mkNode, nameOf, hnc]
            have hcLc : c ∉ Lc := (List.nodup_cons.mp hndc).1
            -- the state after emitting `c`
            have hfree2 : ∀ u ∈ Lc, MaterializedPathTree.contains
                ⟨sep, mp.nodes ++ [MPNode.mk c (specPath al sep c) nc.name]⟩ u
                  = false := by
              intro u hu
              apply mp_contains_append_false.mpr
              refine ⟨?_, ?_⟩
              · have h0 := hfree u
                  (List.mem_append_left _ (List.mem_cons_of_mem _ hu))
                rw [← hsep]
                exact h0
              · intro x hx
                rw [List.mem_singleton] at hx
                subst hx
                intro he
                exact hcLc (by
                  simp only [MPNode.node_id] at he
                  rw [he]; exact hu)
            have hrun1 := ihf m (by omega) (childIds al (some c)) (some c)
              (specPath al sep c)
              ⟨sep, mp.nodes ++ [MPNode.mk c (specPath al sep c) nc.name]⟩ Lc
              hLc (fun d hd => childIds_find? hb hd) rfl rfl hfree2
              (List.nodup_cons.mp hndc).2
            have hdb : dfs_build al sep (m + 1) c pp mp =
                dfs_forest al sep m (childIds al (some c)) (specPath al sep c)
                  ⟨sep, mp.nodes ++ [MPNode.mk c (specPath al sep c) nc.name]⟩ := by
              simp only [dfs_build, hnc, hcur, mp_add_node_ok hfree1 hpre,
                hsep]
              rfl
            have hfree3 : ∀ u ∈ lr, MaterializedPathTree.contains
                ⟨sep, (mp.nodes ++ [MPNode.mk c (specPath al sep c) nc.name]) ++
                  Lc.map (mkNode al sep)⟩ u = false := by
              intro u hu
              rw [List.append_assoc]
              apply mp_contains_append_false.mpr
              refine ⟨?_, ?_⟩
              · have h0 := hfree u (List.mem_append_right _ hu)
                rw [← hsep]
                exact h0
              · intro x hx
                rcases List.mem_append.mp hx with hx | hx
                · rw [List.mem_singleton] at hx
                  subst hx
                  intro he
                  simp only [MPNode.node_id] at he
                  exact hdisj (List.mem_cons_self _ _) (he ▸ hu)
                · obtain ⟨v, hv, rfl⟩ := List.mem_map.mp hx
                  intro he
                  rw [mkNode_node_id] at he
                  exact hdisj (List.mem_cons_of_mem _ hv) (he ▸ hu)
            have hrun2 := ihl π pp
              ⟨sep, (mp.nodes ++ [MPNode.mk c (specPath al sep c) nc.name]) ++
                Lc.map (mkNode al sep)⟩ lr hr
              (fun d hd => hsib d (List.mem_cons_of_mem _ hd)) hpp rfl hfree3
              hndr
            simp only [dfs_forest, List.foldlM_cons]
            rw [hdb, hrun1]
            show dfs_forest al sep (m + 1) rest pp
              ⟨sep, (mp.nodes ++ [MPNode.mk c (specPath al sep c) nc.name]) ++
                Lc.map (mkNode al sep)⟩ =
              .ok ⟨sep, mp.nodes ++ ((c :: Lc) ++ lr).map (mkNode al sep)⟩
            rw [hrun2]
            simp [hmk, List.map_append, List.append_assoc]

/-!  ## Characterization of the forward conversion  -/

theorem convert_al_to_mp_spec {al : AdjacencyListTree} (hb : Built al)
    (sep : Str) :
    ∃ L : List Str, dfsForestIds al al.size (childIds al none) = some L ∧
      L.Nodup ∧ (∀ u, u ∈ L ↔ u ∈ ids al) ∧ L.Perm (ids al) ∧
      convert_al_to_mp al sep = .ok ⟨sep, L.map (mkNode al sep)⟩ := by
  obtain ⟨L, hL, hnd, hmem, hperm⟩ := traversal_exists hb
  refine ⟨L, hL, hnd, hmem, hperm, ?_⟩
  rw [convert_al_to_mp]
  have h := dfs_forest_run hb sep al.size (childIds al none) none sep
    (MaterializedPathTree.empty sep) L hL
    (fun c hc => childIds_find? hb hc) rfl rfl
    (fun u hu => rfl) hnd
  simpa [MaterializedPathTree.empty] using h

theorem find?_map_mkNode {al : AdjacencyListTree} {sep : Str} {L : List Str}
    {u : Str} (hu : u ∈ L) :
    (L.map (mkNode al sep)).find? (fun n => n.node_id == u) =
      some (mkNode al sep u) := by
  induction L with
  | nil => simp at hu
  | cons v rest ih =>
    by_cases hv : v = u
    · subst hv
      rw [List.map_cons, List.find?_cons_of_pos _ (by simp [mkNode_node_id])]
    · rw [List.map_cons,
        List.find?_cons_of_neg _ (by simp [mkNode_node_id, hv])]
      refine ih ?_
      rcases List.mem_cons.mp hu with h | h
      · exact absurd h.symm hv
      · exact h

theorem find?_map_mkNode_none {al : AdjacencyListTree} {sep : Str}
    {L : List Str} {u : Str} (hu : u ∉ L) :
    (L.map (mkNode al sep)).find? (fun n => n.node_id == u) = none := by
  rw [List.find?_eq_none]
  intro x hx
  obtain ⟨v, hv, rfl⟩ := List.mem_map.mp hx
  simp only [mkNode_node_id, beq_iff_eq]
  exact fun he => hu (he ▸ hv)

theorem convert_find? {al : AdjacencyListTree} (hb : Built al) (sep : Str) :
    ∃ mp, convert_al_to_mp al sep = .ok mp ∧ mp.sep = sep ∧
      mp.size = al.size ∧
      (∀ u, mp.contains u = al.contains u) ∧
      (∀ u, u ∈ ids al → mp.find? u = some (mkNode al sep u)) ∧
      (∀ u, u ∉ ids al → mp.find? u = none) := by
  obtain ⟨L, -, hnd, hmem, hperm, heq⟩ := convert_al_to_mp_spec hb sep
  have hfind : ∀ u, MaterializedPathTree.find?
      ⟨sep, L.map (mkNode al sep)⟩ u =
        if u ∈ ids al then some (mkNode al sep u) else none := by
    intro u
    by_cases hu : u ∈ ids al
    · rw [if_pos hu]
      exact find?_map_mkNode ((hmem u).mpr hu)
    · rw [if_neg hu]
      exact find?_map_mkNode_none (fun h => hu ((hmem u).mp h))
  refine ⟨_, heq, rfl, ?_, ?_, ?_, ?_⟩
  · show (L.map (mkNode al sep)).length = al.size
    rw [List.length_map, hperm.length_eq, ids, List.length_map]
    rfl
  · intro u
    rw [MaterializedPathTree.contains, hfind u]
    by_cases hu : u ∈ ids al
    · rw [if_pos hu, (contains_iff.mpr hu)]
      rfl
    · rw [if_neg hu, (contains_false_iff.mpr hu)]
      rfl
  · intro u hu
    rw [hfind u, if_pos hu]
  · intro u hu
    rw [hfind u, if_neg hu]

/-!  ## The canonical path as a delimiter-joined chain  -/

theorem joinSep_append_single (sep x : Str) :
    ∀ l : List Str, l ≠ [] →
      joinSep sep (l ++ [x]) = joinSep sep l ++ sep ++ x := by
  intro l
  induction l with
  | nil => intro h; exact absurd rfl h
  | cons a t ih =>
    intro _
    cases t with
    | nil => simp [joinSep]
    | cons b t' =>
      have h1 : joinSep sep ((a :: b :: t') ++ [x]) =
          a ++ sep ++ joinSep sep ((b :: t') ++ [x]) := by
        simp [joinSep]
      rw [h1, ih (by simp)]
      simp [joinSep, List.append_assoc]

theorem joinSep_concat_ne_nil (sep : Str) {x : Str} (hx : x ≠ []) :
    ∀ l : List Str, joinSep sep (l ++ [x]) ≠ [] := by
  intro l
  cases l with
  | nil => simpa [joinSep] using hx
  | cons a t =>
    rw [joinSep_append_single sep x _ (by simp)]
    simp [hx]

theorem chain_concat {al : AdjacencyListTree} (hb : Built al) {v : Str}
    (hv : v ∈ ids al) : ∃ l', chain al v = l' ++ [v] := by
  obtain ⟨hne, hlast⟩ := chain_getLast hb hv
  have h := List.dropLast_append_getLast hne
  have hg : (chain al v).getLast hne = v := by
    rw [List.getLast?_eq_getLast _ hne] at hlast
    injection hlast
  exact ⟨(chain al v).dropLast, by rw [hg] at h; exact h.symm⟩

theorem id_ne_nil {al : AdjacencyListTree}
    (hne : ∀ n ∈ al.nodes, n.node_id ≠ []) {v : Str} (hv : v ∈ ids al) :
    v ≠ [] := by
  obtain ⟨n, hn, hid⟩ := List.mem_map.mp hv
  exact hid ▸ hne n hn

theorem specPath_eq_joinSep {al : AdjacencyListTree} (hb : Built al) (sep : Str)
    (hne : ∀ n ∈ al.nodes, n.node_id ≠ []) :
    ∀ r v, rank al v = r → v ∈ ids al →
      specPath al sep v = sep ++ joinSep sep (chain al v) := by
  intro r
  induction r using Nat.strong_induction_on with
  | _ r ih =>
    intro v hr hv
    obtain ⟨n, hn⟩ := find?_isSome_of_mem hv
    cases hp : n.parent_id with
    | none =>
      rw [specPath_def_root sep hn hp, chain_def_root hn hp]
      rfl
    | some p =>
      obtain ⟨hpm, hplt⟩ := rank_parent_lt hb hn hp
      have hih := ih (rank al p) (by omega) p rfl hpm
      have hchain : chain al v = chain al p ++ [v] := chain_def_parent hb hn hp
      obtain ⟨l', hl'⟩ := chain_concat hb hpm
      have hpne : p ≠ [] := id_ne_nil hne hpm
      have hjoin_ne : joinSep sep (chain al p) ≠ [] := by
        rw [hl']
        exact joinSep_concat_ne_nil sep hpne l'
      have hns : specPath al sep p ≠ sep := by
        rw [hih]
        intro he
        have hlen := congrArg List.length he
        rw [List.length_append] at hlen
        have : (joinSep sep (chain al p)).length = 0 := by omega
        exact hjoin_ne (List.length_eq_zero.mp this)
      rw [specPath_def_parent hb sep hn hp, if_neg hns, hih, hchain,
        joinSep_append_single sep v _ (chain_getLast hb hpm).1]
      simp [List.append_assoc]

theorem specPath_ne_sep {al : AdjacencyListTree} (hb : Built al) (sep : Str)
    (hne : ∀ n ∈ al.nodes, n.node_id ≠ []) {v : Str} (hv : v ∈ ids al) :
    specPath al sep v ≠ sep := by
  rw [specPath_eq_joinSep hb sep hne (rank al v) v rfl hv]
  obtain ⟨l', hl'⟩ := chain_concat hb hv
  have hjoin_ne : joinSep sep (chain al v) ≠ [] := by
    rw [hl']
    exact joinSep_concat_ne_nil sep (id_ne_nil hne hv) l'
  intro he
  have hlen := congrArg List.length he
  rw [List.length_append] at hlen
  have : (joinSep sep (chain al v)).length = 0 := by omega
  exact hjoin_ne (List.length_eq_zero.mp this)

/-!  ## Congruence: the conversion depends only on the node-set  -/

theorem find?_eq_of_perm {al1 al2 : AdjacencyListTree} (hb1 : Built al1)
    (hperm : al1.nodes.Perm al2.nodes) :
    ∀ id, al1.find? id = al2.find? id := by
  intro id
  have hnd1 := built_nodup hb1
  have hnd1' : (al1.nodes.map (fun n : ALNode => n.node_id)).Nodup := hnd1
  have hnd2 : (ids al2).Nodup :=
    ((hperm.map (fun n : ALNode => n.node_id)).nodup_iff).mp hnd1'
  cases hf : al1.find? id with
  | some n =>
    obtain ⟨hid, hmem⟩ := find?_spec hf
    have hmem2 : n ∈ al2.nodes := hperm.subset hmem
    subst hid
    exact (find?_of_mem_nodup hnd2 hmem2).symm
  | none =>
    rw [AdjacencyListTree.find?, List.find?_eq_none] at hf
    symm
    rw [AdjacencyListTree.find?, List.find?_eq_none]
    intro x hx
    exact hf x (hperm.symm.subset hx)

theorem childIds_eq_of_perm {al1 al2 : AdjacencyListTree}
    (hperm : al1.nodes.Perm al2.nodes) (π : Option Str) :
    childIds al1 π = childIds al2 π := by
  have h1 := List.perm_insertionSort (· ≤ ·)
    ((al1.nodes.filter (fun n => n.parent_id == π)).map (·.node_id))
  have h2 := (hperm.filter (fun n => n.parent_id == π)).map (·.node_id)
  have h3 := List.perm_insertionSort (· ≤ ·)
    ((al2.nodes.filter (fun n => n.parent_id == π)).map (·.node_id))
  exact List.eq_of_perm_of_sorted (h1.trans (h2.trans h3.symm))
    (List.sorted_insertionSort _ _) (List.sorted_insertionSort _ _)

theorem specPathAux_congr {al1 al2 : AdjacencyListTree}
    (hf : ∀ id, al1.find? id = al2.find? id) (sep : Str) :
    ∀ k id, specPathAux al1 sep k id = specPathAux al2 sep k id := by
  intro k
  induction k with
  | zero => intro id; rfl
  | succ m ih =>
    intro id
    cases hn : al2.find? id with
    | none => simp [specPathAux, hf id, hn]
    | some n =>
      cases hp : n.parent_id with
      | none => simp [specPathAux, hf id, hn, hp]
      | some p => simp [specPathAux, hf id, hn, hp, ih p]

theorem dfsForestIds_congr {al1 al2 : AdjacencyListTree}
    (hc : ∀ π, childIds al1 π = childIds al2 π) :
    ∀ fuel l, dfsForestIds al1 fuel l = dfsForestIds al2 fuel l := by
  intro fuel
  induction fuel using Nat.strong_induction_on with
  | _ fuel ihf =>
    intro l
    induction l with
    | nil => rw [dfsForestIds_nil, dfsForestIds_nil]
    | cons c rest ihl =>
      cases fuel with
      | zero => simp [dfsForestIds, dfsIds]
      | succ m =>
        have hdb : dfsIds al1 (m + 1) c = dfsIds al2 (m + 1) c := by
          simp only [dfsIds, hc (some c), ihf m (by omega)]
        simp only [dfsForestIds, hdb, ihl]

/-!  ## Reaching a root by following parent pointers  -/

theorem reachesRootB_of_rank {al : AdjacencyListTree} (hb : Built al) :
    ∀ r v, rank al v = r → v ∈ ids al → ∀ k, r < k →
      reachesRootB al k v = true := by
  intro r
  induction r using Nat.strong_induction_on with
  | _ r ih =>
    intro v hr hv k hk
    obtain ⟨k, rfl⟩ : ∃ m, k = m + 1 := ⟨k - 1, by omega⟩
    obtain ⟨n, hn⟩ := find?_isSome_of_mem hv
    cases hp : n.parent_id with
    | none => simp [reachesRootB, hn, hp]
    | some p =>
      obtain ⟨hpm, hplt⟩ := rank_parent_lt hb hn hp
      rw [hr] at hplt
      simp only [reachesRootB, hn, hp]
      exact ih (rank al p) hplt p rfl hpm k (by omega)

/-!  ## Splitting canonical paths  -/

theorem splitCharsAux_singleton (c : Char) :
    ∀ f s, s.length ≤ f →
      splitCharsAux [c] f s = List.splitOnP (fun a => a == c) s := by
  intro f
  induction f with
  | zero =>
    intro s hs
    have hs0 : s = [] := List.length_eq_zero.mp (Nat.le_zero.mp hs)
    subst hs0
    rw [List.splitOnP_nil]
    rfl
  | succ f ih =>
    intro s hs
    cases s with
    | nil => rw [List.splitOnP_nil]; rfl
    | cons x xs =>
      rw [List.splitOnP_cons]
      simp only [splitCharsAux]
      by_cases hx : x = c
      · subst hx
        rw [if_pos ⟨by simp, by simp [List.isPrefixOf]⟩]
        rw [if_pos (by simp)]
        show [] :: splitCharsAux [x] f xs = [] :: List.splitOnP (fun a => a == x) xs
        rw [ih xs (by simpa using hs)]
      · rw [if_neg (fun h => hx (by
          have h2 := h.2
          simp only [List.isPrefixOf, Bool.and_eq_true, beq_iff_eq] at h2
          exact h2.1.symm))]
        rw [if_neg (by simp [hx])]
        rw [ih xs (by simp at hs; omega)]
        cases hsp : List.splitOnP (fun a => a == c) xs with
        | nil => exact absurd hsp (List.splitOnP_ne_nil _ _)
        | cons y ys => rfl

theorem splitChars_singleton (c : Char) (s : Str) :
    splitChars [c] s = List.splitOnP (fun a => a == c) s :=
  splitCharsAux_singleton c s.length s (le_refl _)

theorem splitOnP_joinSep {c : Char} :
    ∀ ls : List Str, ls ≠ [] → (∀ s ∈ ls, c ∉ s) →
      List.splitOnP (fun a => a == c) (joinSep [c] ls) = ls := by
  intro ls
  induction ls with
  | nil => intro h; exact absurd rfl h
  | cons x t ih =>
    intro _ hfree
    have hx : ∀ a ∈ x, ¬((a == c) = true) := by
      intro a ha
      simp only [beq_iff_eq]
      exact fun he => hfree x (List.mem_cons_self _ _) (he ▸ ha)
    cases t with
    | nil =>
      show List.splitOnP (fun a => a == c) x = [x]
      exact List.splitOnP_eq_single _ _ hx
    | cons y t' =>
      have hjoin : joinSep [c] (x :: y :: t') = x ++ c :: joinSep [c] (y :: t') := by
        show x ++ [c] ++ joinSep [c] (y :: t') = x ++ c :: joinSep [c] (y :: t')
        simp
      rw [hjoin, List.splitOnP_first _ x hx c (by simp) _,
        ih (by simp) (fun s hs => hfree s (List.mem_cons_of_mem _ hs))]

theorem id_c_free {al : AdjacencyListTree} {c : Char}
    (hfree : ∀ n ∈ al.nodes, c ∉ n.node_id) {v : Str} (hv : v ∈ ids al) :
    c ∉ v := by
  obtain ⟨n, hn, hid⟩ := List.mem_map.mp hv
  exact hid ▸ hfree n hn

theorem pathParts_specPath {al : AdjacencyListTree} (hb : Built al) {c : Char}
    (hne : ∀ n ∈ al.nodes, n.node_id ≠ [])
    (hfree : ∀ n ∈ al.nodes, c ∉ n.node_id) {v : Str} (hv : v ∈ ids al) :
    pathParts [c] (specPath al [c] v) = chain al v := by
  rw [pathParts, specPath_eq_joinSep hb [c] hne (rank al v) v rfl hv]
  have hchain_ne : chain al v ≠ [] := (chain_getLast hb hv).1
  have hchain_ids : ∀ s ∈ chain al v, s ∈ ids al :=
    fun s hs => (chain_mem_rank hb (rank al v) v rfl hv s hs).1
  have h1 : splitChars [c] ([c] ++ joinSep [c] (chain al v)) =
      [] :: chain al v := by
    rw [splitChars_singleton]
    show List.splitOnP (fun a => a == c) (c :: joinSep [c] (chain al v)) = _
    rw [List.splitOnP_cons, if_pos (by simp),
      splitOnP_joinSep (chain al v) hchain_ne
        (fun s hs => id_c_free hfree (hchain_ids s hs))]
  rw [h1]
  rw [List.filter_cons]
  rw [if_neg (by simp)]
  rw [List.filter_eq_self]
  intro s hs
  simpa using id_ne_nil hne (hchain_ids s hs)

theorem mkNode_path (al : AdjacencyListTree) (sep u : Str) :
    (mkNode al sep u).path = specPath al sep u := rfl

theorem mkNode_name (al : AdjacencyListTree) (sep u : Str) :
    (mkNode al sep u).name = nameOf al u := rfl

theorem depth_mkNode {al : AdjacencyListTree} (hb : Built al) {c : Char}
    (hne : ∀ n ∈ al.nodes, n.node_id ≠ [])
    (hfree : ∀ n ∈ al.nodes, c ∉ n.node_id) {v : Str} (hv : v ∈ ids al) :
    depth [c] (mkNode al [c] v) = (chain al v).length := by
  rw [depth, mkNode_path, pathParts_specPath hb hne hfree hv]

/-!  ## One step of the reconstruction on a canonical node  -/

theorem mpStep_mkNode {al : AdjacencyListTree} (hb : Built al) {c : Char}
    (hne : ∀ n ∈ al.nodes, n.node_id ≠ [])
    (hfree : ∀ n ∈ al.nodes, c ∉ n.node_id) {v : Str} (hv : v ∈ ids al)
    (al₀ : AdjacencyListTree) :
    mpStep [c] al₀ (mkNode al [c] v) =
      al₀.add_node v (parentOfA al v) (nameOf al v) := by
  have hparts : pathParts [c] (mkNode al [c] v).path = chain al v := by
    rw [mkNode_path]
    exact pathParts_specPath hb hne hfree hv
  obtain ⟨hchne, hlast⟩ := chain_getLast hb hv
  rw [mpStep]
  simp only [hparts, hlast, mkNode_node_id, mkNode_name]
  rw [if_neg (by simp)]
  obtain ⟨n, hn⟩ := find?_isSome_of_mem hv
  cases hp : n.parent_id with
  | none =>
    rw [chain_def_root hn hp]
    rw [if_pos (by simp)]
    simp only [parentOfA, hn, hp]
  | some p =>
    obtain ⟨hpm, hplt⟩ := rank_parent_lt hb hn hp
    obtain ⟨hpne, hplast⟩ := chain_getLast hb hpm
    have hlp : 1 ≤ (chain al p).length := by
      cases hcp : chain al p with
      | nil => exact absurd hcp hpne
      | cons a t => simp
    rw [chain_def_parent hb hn hp]
    rw [if_neg (by simp [hpne])]
    have hidx : (chain al p ++ [v])[(chain al p ++ [v]).length - 2]? = some p := by
      have hlen : (chain al p ++ [v]).length = (chain al p).length + 1 := by simp
      rw [hlen]
      have h2 : (chain al p).length + 1 - 2 = (chain al p).length - 1 := by omega
      rw [h2, List.getElem?_append, if_pos (by omega)]
      rw [← List.getLast?_eq_getElem?]
      exact hplast
    rw [hidx]
    simp only [parentOfA, hn, hp]

/-!  ## The reconstruction fold  -/

theorem mp_fold_inv {al : AdjacencyListTree} (hb : Built al) {c : Char}
    (hne : ∀ n ∈ al.nodes, n.node_id ≠ [])
    (hfree : ∀ n ∈ al.nodes, c ∉ n.node_id) :
    ∀ (items : List MPNode) (done : List Str) (al₀ : AdjacencyListTree),
      (∀ it ∈ items, ∃ u, u ∈ ids al ∧ it = mkNode al [c] u ∧ u ∉ done) →
      List.Sorted (fun a b => depth [c] a ≤ depth [c] b) items →
      (∀ u, u ∈ ids al → u ∈ done ∨ mkNode al [c] u ∈ items) →
      (items.map (·.node_id)).Nodup →
      (∀ x, al₀.find? x = if x ∈ done
        then some (ALNode.mk x (parentOfA al x) (nameOf al x)) else none) →
      ∃ al', items.foldlM (mpStep [c]) al₀ = .ok al' ∧
        ∀ x, al'.find? x = if x ∈ done ++ items.map (·.node_id)
          then some (ALNode.mk x (parentOfA al x) (nameOf al x)) else none := by
  intro items
  induction items with
  | nil =>
    intro done al₀ _ _ _ _ hinv
    exact ⟨al₀, rfl, by simpa using hinv⟩
  | cons it rest ih =>
    intro done al₀ hitems hsort hclosure hnd hinv
    obtain ⟨u, hu, rfl, hudone⟩ := hitems it (List.mem_cons_self _ _)
    have hndu : u ∉ rest.map (·.node_id) ∧ (rest.map (·.node_id)).Nodup := by
      have h := hnd
      rw [List.map_cons, mkNode_node_id, List.nodup_cons] at h
      exact h
    have hstep : mpStep [c] al₀ (mkNode al [c] u) =
        al₀.add_node u (parentOfA al u) (nameOf al u) :=
      mpStep_mkNode hb hne hfree hu al₀
    have hcontains : al₀.contains u = false := by
      rw [AdjacencyListTree.contains, hinv u, if_neg hudone]
      rfl
    obtain ⟨n, hn⟩ := find?_isSome_of_mem hu
    have hparent : ∀ q, parentOfA al u = some q → al₀.contains q = true := by
      intro q hq
      have hq' : n.parent_id = some q := by
        simp only [parentOfA, hn] at hq
        exact hq
      obtain ⟨hqm, hqlt⟩ := rank_parent_lt hb hn hq'
      have hqdone : q ∈ done := by
        rcases hclosure q hqm with h | h
        · exact h
        · rcases List.mem_cons.mp h with he | he
          · have hqu : q = u := by
              have h2 := congrArg MPNode.node_id he
              simpa [mkNode_node_id] using h2
            subst hqu
            omega
          · have hle : depth [c] (mkNode al [c] u) ≤
                depth [c] (mkNode al [c] q) :=
              (List.sorted_cons.mp hsort).1 _ he
            rw [depth_mkNode hb hne hfree hu, depth_mkNode hb hne hfree hqm,
              chain_def_parent hb hn hq'] at hle
            simp at hle
      rw [AdjacencyListTree.contains, hinv q, if_pos hqdone]
      rfl
    have hok : al₀.add_node u (parentOfA al u) (nameOf al u) =
        .ok ⟨al₀.nodes ++ [ALNode.mk u (parentOfA al u) (nameOf al u)]⟩ :=
      add_node_ok_iff.mpr ⟨hcontains, hparent, rfl⟩
    have hinv' : ∀ x, AdjacencyListTree.find?
        ⟨al₀.nodes ++ [ALNode.mk u (parentOfA al u) (nameOf al u)]⟩ x =
          if x ∈ done ++ [u]
          then some (ALNode.mk x (parentOfA al x) (nameOf al x)) else none := by
      intro x
      rw [AdjacencyListTree.find?, List.find?_append]
      have hx0 : al₀.nodes.find? (fun m => m.node_id == x) = al₀.find? x := rfl
      rw [hx0, hinv x]
      by_cases hxd : x ∈ done
      · rw [if_pos hxd, if_pos (List.mem_append_left _ hxd)]
        rfl
      · rw [if_neg hxd]
        by_cases hxu : x = u
        · subst hxu
          rw [if_pos (List.mem_append_right _ (List.mem_singleton.mpr rfl))]
          simp [List.find?]
        · rw [if_neg (by simp [hxd, hxu])]
          have hbe : (u == x) = false :=
            beq_eq_false_iff_ne.mpr (fun h => hxu h.symm)
          simp [List.find?, hbe]
    have hitems' : ∀ it ∈ rest, ∃ v, v ∈ ids al ∧ it = mkNode al [c] v ∧
        v ∉ done ++ [u] := by
      intro it hit
      obtain ⟨v, hv1, rfl, hv3⟩ := hitems it (List.mem_cons_of_mem _ hit)
      refine ⟨v, hv1, rfl, ?_⟩
      intro hmem
      rcases List.mem_append.mp hmem with h | h
      · exact hv3 h
      · rw [List.mem_singleton] at h
        subst h
        have hmm : (mkNode al [c] v).node_id ∈ rest.map (·.node_id) :=
          List.mem_map_of_mem _ hit
        rw [mkNode_node_id] at hmm
        exact hndu.1 hmm
    have hclosure' : ∀ v, v ∈ ids al →
        v ∈ done ++ [u] ∨ mkNode al [c] v ∈ rest := by
      intro v hv
      rcases hclosure v hv with h | h
      · exact Or.inl (List.mem_append_left _ h)
      · rcases List.mem_cons.mp h with he | he
        · left
          refine List.mem_append_right _ ?_
          rw [List.mem_singleton]
          have h2 := congrArg MPNode.node_id he
          simpa [mkNode_node_id] using h2
        · exact Or.inr he
    obtain ⟨al', hfold, hinvf⟩ := ih (done ++ [u])
      ⟨al₀.nodes ++ [ALNode.mk u (parentOfA al u) (nameOf al u)]⟩
      hitems' (List.sorted_cons.mp hsort).2 hclosure' hndu.2 hinv'
    refine ⟨al', ?_, ?_⟩
    · rw [List.foldlM_cons, hstep, hok]
      show rest.foldlM (mpStep [c]) _ = .ok al'
      exact hfold
    · intro x
      rw [hinvf x]
      have hiff : (x ∈ (done ++ [u]) ++ rest.map (·.node_id)) ↔
          (x ∈ done ++ (mkNode al [c] u :: rest).map (·.node_id)) := by
        simp [mkNode_node_id, List.mem_append, or_assoc]
      rw [if_congr hiff rfl rfl]

/-!  ## The round trip  -/

theorem mpSortedItems_sorted (mp : MaterializedPathTree) :
    List.Sorted (fun a b => depth mp.sep a ≤ depth mp.sep b)
      (mpSortedItems mp) := by
  haveI : IsTotal MPNode (fun a b => depth mp.sep a ≤ depth mp.sep b) :=
    ⟨fun a b => Nat.le_total _ _⟩
  haveI : IsTrans MPNode (fun a b => depth mp.sep a ≤ depth mp.sep b) :=
    ⟨fun a b d hab hbd => Nat.le_trans hab hbd⟩
  exact List.sorted_insertionSort _ _

theorem mpSortedItems_perm (mp : MaterializedPathTree) :
    (mpSortedItems mp).Perm mp.nodes :=
  List.perm_insertionSort _ _

theorem convert_round_trip {al : AdjacencyListTree} (hb : Built al) (c : Char)
    (hne : ∀ n ∈ al.nodes, n.node_id ≠ [])
    (hfree : ∀ n ∈ al.nodes, c ∉ n.node_id) :
    ∃ mp al', convert_al_to_mp al [c] = .ok mp ∧
      convert_mp_to_al mp = .ok al' ∧
      ∀ x, al'.find? x = al.find? x := by
  obtain ⟨L, hL, hnd, hmem, hperm, heq⟩ := convert_al_to_mp_spec hb [c]
  have hMnodes : (L.map (mkNode al [c])).map (fun x : MPNode => x.node_id)
      = L := by
    rw [List.map_map]
    exact List.map_id L
  have hitemsperm := mpSortedItems_perm ⟨[c], L.map (mkNode al [c])⟩
  have hitemsmap : ((mpSortedItems ⟨[c], L.map (mkNode al [c])⟩).map
      (fun x : MPNode => x.node_id)).Perm L := by
    have h := hitemsperm.map (fun x : MPNode => x.node_id)
    exact h.trans (by rw [hMnodes])
  have hmemix : ∀ x, x ∈ (mpSortedItems ⟨[c], L.map (mkNode al [c])⟩).map
      (fun x : MPNode => x.node_id) ↔ x ∈ ids al := by
    intro x
    rw [hitemsmap.mem_iff]
    exact hmem x
  have h1 : ∀ it ∈ mpSortedItems ⟨[c], L.map (mkNode al [c])⟩,
      ∃ u, u ∈ ids al ∧ it = mkNode al [c] u ∧ u ∉ ([] : List Str) := by
    intro it hit
    have hit2 : it ∈ L.map (mkNode al [c]) := hitemsperm.subset hit
    obtain ⟨u, hu, rfl⟩ := List.mem_map.mp hit2
    exact ⟨u, (hmem u).mp hu, rfl, List.not_mem_nil u⟩
  have h3 : ∀ u, u ∈ ids al → u ∈ ([] : List Str) ∨
      mkNode al [c] u ∈ mpSortedItems ⟨[c], L.map (mkNode al [c])⟩ := by
    intro u hu
    right
    refine (List.mem_insertionSort _).mpr ?_
    exact List.mem_map_of_mem _ ((hmem u).mpr hu)
  have h5 : ∀ x, AdjacencyListTree.empty.find? x =
      if x ∈ ([] : List Str)
      then some (ALNode.mk x (parentOfA al x) (nameOf al x)) else none := by
    intro x
    rw [if_neg (List.not_mem_nil x)]
    rfl
  obtain ⟨al', hfold, hinvf⟩ := mp_fold_inv hb hne hfree
    (mpSortedItems ⟨[c], L.map (mkNode al [c])⟩) [] AdjacencyListTree.empty
    h1 (mpSortedItems_sorted ⟨[c], L.map (mkNode al [c])⟩) h3
    ((hitemsmap.nodup_iff).mpr hnd) h5
  refine ⟨⟨[c], L.map (mkNode al [c])⟩, al', heq, ?_, ?_⟩
  · rw [convert_mp_to_al]
    rw [if_neg (by rintro ⟨hg, -⟩; exact List.noConfusion hg)]
    exact hfold
  · intro x
    rw [hinvf x, List.nil_append]
    by_cases hx : x ∈ ids al
    · rw [if_pos ((hmemix x).mpr hx)]
      obtain ⟨n, hn⟩ := find?_isSome_of_mem hx
      rw [hn]
      obtain ⟨hid, -⟩ := find?_spec hn
      simp only [parentOfA, nameOf, hn]
      cases n with
      | mk a b d =>
        simp only at hid ⊢
        rw [hid]
    · rw [if_neg (fun h => hx ((hmemix x).mp h))]
      have hcf : al.contains x = false := contains_false_iff.mpr hx
      rw [AdjacencyListTree.contains] at hcf
      cases hf : al.find? x with
      | none => rfl
      | some m => rw [hf] at hcf; simp at hcf

/-!  ## Concrete build sequences  -/

theorem built_alScenarioA : Built alScenarioA :=
  @Built.step alScenarioA3 alScenarioA (str "D") (some (str "B")) (str "Node D")
    (@Built.step alScenarioA2 alScenarioA3 (str "C") (some (str "A"))
      (str "Node C")
      (@Built.step alScenarioA1 alScenarioA2 (str "B") (some (str "A"))
        (str "Node B")
        (@Built.step AdjacencyListTree.empty alScenarioA1 (str "A") none
          (str "Root A") Built.empty rfl) rfl) rfl) rfl

theorem built_alEmptyRoot : Built alEmptyRoot :=
  @Built.step AdjacencyListTree.empty alEmptyRoot [] none [] Built.empty rfl

theorem built_alEmptyRootChild : Built alEmptyRootChild :=
  @Built.step alEmptyRoot alEmptyRootChild (str "c") (some []) []
    built_alEmptyRoot rfl

theorem built_alTwoOrders1 : Built alTwoOrders1 :=
  @Built.step ⟨[ALNode.mk (str "A") none (str "x"),
      ALNode.mk (str "B") none (str "y")]⟩ alTwoOrders1
    (str "C") (some (str "A")) (str "z")
    (@Built.step ⟨[ALNode.mk (str "A") none (str "x")]⟩ _
      (str "B") none (str "y")
      (@Built.step AdjacencyListTree.empty _ (str "A") none (str "x")
        Built.empty rfl) rfl) rfl

theorem built_alTwoOrders2 : Built alTwoOrders2 :=
  @Built.step ⟨[ALNode.mk (str "B") none (str "y"),
      ALNode.mk (str "A") none (str "x")]⟩ alTwoOrders2
    (str "C") (some (str "A")) (str "z")
    (@Built.step ⟨[ALNode.mk (str "B") none (str "y")]⟩ _
      (str "A") none (str "x")
      (@Built.step AdjacencyListTree.empty _ (str "B") none (str "y")
        Built.empty rfl) rfl) rfl

/-!  ## The claims  -/

/-- **C1** (counterexample to the claim as stated): the single-root tree
whose root has the empty identifier is built by a successful `add_node`
call, its forward conversion succeeds (path `"/"`), yet the reverse
conversion of that output fails with `MalformedPath` instead of yielding a
tree with the same identifier set, parent relation and names. -/
theorem claim_C1_counterexample :
    Built alEmptyRoot ∧
    convert_al_to_mp alEmptyRoot (str "/") = .ok mpEmptyRoot ∧
    convert_mp_to_al mpEmptyRoot = .error (.MalformedPath [] (str "/")) :=
  ⟨built_alEmptyRoot, rfl, rfl⟩

/-- **C1** (amended): for every adjacency-list tree built by successful
`add_node` calls, provided the delimiter is a single character and every
identifier is nonempty and does not contain that character, converting
forward with `convert_al_to_mp` and back with `convert_mp_to_al` succeeds
and yields an adjacency-list tree with the same identifier set, the same
parent for every identifier, and the same name for every identifier (the
whole stored node of every identifier is preserved). -/
theorem claim_C1 {al : AdjacencyListTree} (hb : Built al) (c : Char)
    (hne : ∀ n ∈ al.nodes, n.node_id ≠ [])
    (hfree : ∀ n ∈ al.nodes, c ∉ n.node_id) :
    ∃ mp al', convert_al_to_mp al [c] = .ok mp ∧
      convert_mp_to_al mp = .ok al' ∧
      (∀ x, al'.contains x = al.contains x) ∧
      (∀ x, al'.find? x = al.find? x) := by
  obtain ⟨mp, al', h1, h2, h3⟩ := convert_round_trip hb c hne hfree
  refine ⟨mp, al', h1, h2, ?_, h3⟩
  intro x
  rw [AdjacencyListTree.contains, AdjacencyListTree.contains, h3 x]

/-- Witness for `claim_C1`: the Scenario A tree with delimiter `/`. -/
theorem claim_C1_witness :
    ∃ mp al', convert_al_to_mp alScenarioA (str "/") = .ok mp ∧
      convert_mp_to_al mp = .ok al' ∧
      (∀ x, al'.contains x = alScenarioA.contains x) ∧
      (∀ x, al'.find? x = alScenarioA.find? x) :=
  claim_C1 built_alScenarioA (Char.ofNat 47) (by decide) (by decide)

/-- **C2** (counterexample to the claim as stated): in the built tree with
an empty-identifier root and child `c`, the output path recorded for `c`
is `"/c"`, which is not the delimiter-joined root-to-`c` identifier chain
prefixed by one leading delimiter (that would be `"//c"`). -/
theorem claim_C2_counterexample :
    Built alEmptyRootChild ∧
    convert_al_to_mp alEmptyRootChild (str "/") = .ok mpEmptyRootChild ∧
    mpEmptyRootChild.find? (str "c") =
      some (MPNode.mk (str "c") (str "/c") []) ∧
    chain alEmptyRootChild (str "c") = [[], str "c"] ∧
    str "/c" ≠
      str "/" ++ joinSep (str "/") (chain alEmptyRootChild (str "c")) :=
  ⟨built_alEmptyRootChild, rfl, rfl, rfl, by decide⟩

/-- **C2** (amended: identifiers must be nonempty): for every built tree
whose identifiers are all nonempty, `convert_al_to_mp` succeeds and
produces exactly one output node per input node — same size, same
identifier set, empty input giving empty output — and the path of every
identifier is the delimiter-joined chain of identifiers from its root down
to it, prefixed by one leading delimiter, with the stored name copied. -/
theorem claim_C2 {al : AdjacencyListTree} (hb : Built al) (sep : Str)
    (hne : ∀ n ∈ al.nodes, n.node_id ≠ []) :
    ∃ mp, convert_al_to_mp al sep = .ok mp ∧
      mp.size = al.size ∧
      (∀ u, mp.contains u = al.contains u) ∧
      (al.nodes = [] → mp.nodes = []) ∧
      ∀ u n, al.find? u = some n →
        mp.find? u =
          some (MPNode.mk u (sep ++ joinSep sep (chain al u)) n.name) := by
  obtain ⟨mp, h1, hsep, hsize, hcont, hpos, hneg⟩ := convert_find? hb sep
  refine ⟨mp, h1, hsize, hcont, ?_, ?_⟩
  · intro hempty
    have hz : mp.size = 0 := by
      rw [hsize]
      show al.nodes.length = 0
      rw [hempty]
      rfl
    exact List.length_eq_zero.mp hz
  · intro u n hn
    have hu : u ∈ ids al := mem_ids_of_find? hn
    rw [hpos u hu]
    simp only [mkNode, nameOf, hn,
      specPath_eq_joinSep hb sep hne (rank al u) u rfl hu]

/-- Witness for `claim_C2`: the Scenario A tree with delimiter `/`. -/
theorem claim_C2_witness :
    ∃ mp, convert_al_to_mp alScenarioA (str "/") = .ok mp ∧
      mp.size = alScenarioA.size ∧
      (∀ u, mp.contains u = alScenarioA.contains u) ∧
      (alScenarioA.nodes = [] → mp.nodes = []) ∧
      ∀ u n, alScenarioA.find? u = some n →
        mp.find? u = some (MPNode.mk u
          (str "/" ++ joinSep (str "/") (chain alScenarioA u)) n.name) :=
  claim_C2 built_alScenarioA (str "/") (by decide)

/-- **C3** (counterexample to the claim as stated): in the built tree with
an empty-identifier root and child `c`, the non-root node `c` has recorded
path `"/c"`, while its parent's recorded path is `"/"`, and
`"/" ++ "/" ++ "c" = "//c" ≠ "/c"`. -/
theorem claim_C3_counterexample :
    Built alEmptyRootChild ∧
    alEmptyRootChild.find? (str "c") =
      some (ALNode.mk (str "c") (some []) []) ∧
    convert_al_to_mp alEmptyRootChild (str "/") = .ok mpEmptyRootChild ∧
    (mpEmptyRootChild.find? (str "c")).map MPNode.path = some (str "/c") ∧
    (mpEmptyRootChild.find? []).map MPNode.path = some (str "/") ∧
    str "/c" ≠ str "/" ++ str "/" ++ str "c" :=
  ⟨built_alEmptyRootChild, rfl, rfl, rfl, rfl, by decide⟩

/-- **C3** (amended: identifiers must be nonempty): in the output of the
forward conversion of a built tree with nonempty identifiers, the path of
every non-root node equals the path recorded for its parent, followed by
the delimiter, followed by the node's identifier. -/
theorem claim_C3 {al : AdjacencyListTree} (hb : Built al) (sep : Str)
    (hne : ∀ n ∈ al.nodes, n.node_id ≠ []) {v p : Str} {n : ALNode}
    (hn : al.find? v = some n) (hp : n.parent_id = some p) :
    ∃ mp nv np, convert_al_to_mp al sep = .ok mp ∧
      mp.find? v = some nv ∧ mp.find? p = some np ∧
      nv.path = np.path ++ sep ++ v := by
  obtain ⟨mp, h1, hsep, hsize, hcont, hpos, hneg⟩ := convert_find? hb sep
  have hv := mem_ids_of_find? hn
  obtain ⟨hpm, -⟩ := rank_parent_lt hb hn hp
  refine ⟨mp, _, _, h1, hpos v hv, hpos p hpm, ?_⟩
  rw [mkNode_path, mkNode_path]
  rw [specPath_def_parent hb sep hn hp]
  rw [if_neg (specPath_ne_sep hb sep hne hpm)]

/-- Witness for `claim_C3`: node `B` under root `A` in the Scenario A
tree. -/
theorem claim_C3_witness :
    ∃ mp nv np, convert_al_to_mp alScenarioA (str "/") = .ok mp ∧
      mp.find? (str "B") = some nv ∧ mp.find? (str "A") = some np ∧
      nv.path = np.path ++ str "/" ++ str "B" :=
  claim_C3 built_alScenarioA (str "/") (by decide) rfl rfl

/-- **C4** (confirmed): the forward conversion is a pure function of the
node set and the delimiter — two built trees holding the same
identifier/parent/name triples in any insertion orders convert to
identical outputs (in particular identical path strings for every
identifier) — and every sibling group, the roots included, is emitted in
ascending lexicographic order. -/
theorem claim_C4 {al1 al2 : AdjacencyListTree} (hb1 : Built al1)
    (hb2 : Built al2) (hperm : al1.nodes.Perm al2.nodes) (sep : Str) :
    convert_al_to_mp al1 sep = convert_al_to_mp al2 sep ∧
    ∀ π, List.Sorted (fun a b : Str => a ≤ b) (childIds al1 π) := by
  constructor
  · have hf := find?_eq_of_perm hb1 hperm
    have hc := childIds_eq_of_perm hperm
    have hsize : al1.size = al2.size := hperm.length_eq
    obtain ⟨L1, hL1, -, -, -, he1⟩ := convert_al_to_mp_spec hb1 sep
    obtain ⟨L2, hL2, -, -, -, he2⟩ := convert_al_to_mp_spec hb2 sep
    have hL12 : dfsForestIds al2 al2.size (childIds al2 none) = some L1 := by
      rw [← dfsForestIds_congr hc al2.size (childIds al2 none), ← hc none,
        ← hsize]
      exact hL1
    have hLeq : L1 = L2 := by
      rw [hL12] at hL2
      exact Option.some.inj hL2
    subst hLeq
    have hmk : mkNode al1 sep = mkNode al2 sep := by
      funext u
      show MPNode.mk u (specPath al1 sep u) (nameOf al1 u) =
        MPNode.mk u (specPath al2 sep u) (nameOf al2 u)
      rw [specPath, specPath, hsize, specPathAux_congr hf sep al2.size u]
      rw [nameOf, nameOf, hf u]
    rw [he1, he2, hmk]
  · intro π
    exact List.sorted_insertionSort _ _

/-- Witness for `claim_C4`: the same three nodes inserted in two different
orders convert identically. -/
theorem claim_C4_witness :
    convert_al_to_mp alTwoOrders1 (str "/") =
      convert_al_to_mp alTwoOrders2 (str "/") ∧
    ∀ π, List.Sorted (fun a b : Str => a ≤ b) (childIds alTwoOrders1 π) :=
  claim_C4 built_alTwoOrders1 built_alTwoOrders2 (by decide) (str "/")

/-- The materialized-path tree `mpPreempt` is reachable by successful
`add_node` calls. -/
theorem mpbuilt_preempt : MPBuilt mpPreempt :=
  @MPBuilt.step ⟨str "/", [MPNode.mk (str "B") (str "/X/B") []]⟩ mpPreempt
    (str "Z") (str "/X/Y") []
    (@MPBuilt.step (MaterializedPathTree.empty (str "/")) _ (str "B")
      (str "/X/B") [] (MPBuilt.empty (str "/")) rfl) rfl

/-- **C5** (confirmed; "well-formed input" read as an output of the forward
converter under the round-trip conditions): the reverse converter processes
nodes in ascending depth order; a node passing the split checks is inserted
as a root when its path has one segment and with the second-to-last
segment as parent otherwise; and on a forward-converted input the whole
reconstruction succeeds, so no `UnknownParent` failure occurs. -/
theorem claim_C5 :
    (∀ mp : MaterializedPathTree,
      List.Sorted (fun a b => depth mp.sep a ≤ depth mp.sep b)
        (mpSortedItems mp)) ∧
    (∀ (sep : Str) (al₀ : AdjacencyListTree) (node : MPNode) (lastSeg : Str),
      (pathParts sep node.path).getLast? = some lastSeg →
      lastSeg = node.node_id →
      mpStep sep al₀ node = al₀.add_node node.node_id
        (if (pathParts sep node.path).length = 1 then none
         else (pathParts sep node.path)[(pathParts sep node.path).length - 2]?)
        node.name) ∧
    (∀ al : AdjacencyListTree, Built al → ∀ c : Char,
      (∀ n ∈ al.nodes, n.node_id ≠ []) → (∀ n ∈ al.nodes, c ∉ n.node_id) →
      ∀ mp, convert_al_to_mp al [c] = .ok mp →
        ∃ al', convert_mp_to_al mp = .ok al') := by
  refine ⟨mpSortedItems_sorted, ?_, ?_⟩
  · intro sep al₀ node lastSeg hlast heq
    rw [mpStep]
    simp only [hlast]
    rw [if_neg (by simp [heq])]
  · intro al hb c hne hfree mp hmp
    obtain ⟨mp', al', h1, h2, -⟩ := convert_round_trip hb c hne hfree
    rw [hmp] at h1
    obtain rfl : mp = mp' := by injection h1
    exact ⟨al', h2⟩

/-- Witness for `claim_C5`: sortedness at `mpPreempt`, and the successful
reconstruction of the forward-converted Scenario A tree. -/
theorem claim_C5_witness :
    List.Sorted (fun a b => depth mpPreempt.sep a ≤ depth mpPreempt.sep b)
      (mpSortedItems mpPreempt) ∧
    (∃ al', convert_mp_to_al mpScenarioA = .ok al') :=
  ⟨claim_C5.1 mpPreempt,
   claim_C5.2.2 alScenarioA built_alScenarioA (Char.ofNat 47) (by decide)
     (by decide) mpScenarioA rfl⟩

/-- **C6** (counterexample to the claim as stated): `mpPreempt` is built by
successful `add_node` calls and holds a node (`Z`, path `/X/Y`) whose last
segment `Y` differs from its identifier, yet the conversion fails with
`UnknownParent X` — raised for the same-depth node `B` processed first —
and not with `PathIdentityMismatch`. -/
theorem claim_C6_counterexample :
    MPBuilt mpPreempt ∧
    MPNode.mk (str "Z") (str "/X/Y") [] ∈ mpPreempt.nodes ∧
    (pathParts mpPreempt.sep (str "/X/Y")).getLast? = some (str "Y") ∧
    str "Y" ≠ str "Z" ∧
    convert_mp_to_al mpPreempt = .error (.UnknownParent (str "X")) :=
  ⟨mpbuilt_preempt, by decide, rfl, by decide, rfl⟩

/-- **C6** (amended): with a nonempty delimiter, (a) if some node's path
splits into zero segments the conversion fails with `MalformedPath`; (b) a
node whose split path's last segment differs from its identifier makes the
conversion fail with `PathIdentityMismatch`, provided every node processed
before it in the depth-sorted order inserts successfully (otherwise the
earlier node's failure is reported instead); (c) in particular the
single-node tree of Scenario C — identifier `Z`, path `/X/Y` — fails with
`PathIdentityMismatch`. -/
theorem claim_C6 :
    (∀ mp : MaterializedPathTree, mp.sep ≠ [] →
      ∀ node ∈ mp.nodes, pathParts mp.sep node.path = [] →
      ∃ i pth, convert_mp_to_al mp = .error (.MalformedPath i pth)) ∧
    (∀ (mp : MaterializedPathTree) (pre post : List MPNode) (item : MPNode)
      (al₀ : AdjacencyListTree) (s : Str), mp.sep ≠ [] →
      mpSortedItems mp = pre ++ item :: post →
      pre.foldlM (mpStep mp.sep) AdjacencyListTree.empty = .ok al₀ →
      (pathParts mp.sep item.path).getLast? = some s →
      s ≠ item.node_id →
      convert_mp_to_al mp = .error (.PathIdentityMismatch item.node_id s)) ∧
    convert_mp_to_al mpScenarioC =
      .error (.PathIdentityMismatch (str "Z") (str "Y")) := by
  refine ⟨?_, ?_, rfl⟩
  · intro mp hsep node hnode hparts
    have hnodes_ne : mp.nodes ≠ [] := by
      intro h
      rw [h] at hnode
      exact (List.not_mem_nil _) hnode
    rw [convert_mp_to_al, if_neg (by rintro ⟨h1, -⟩; exact hsep h1)]
    have hitems := mpSortedItems_perm mp
    have hne2 : mpSortedItems mp ≠ [] := by
      intro h
      rw [h] at hitems
      exact hnodes_ne hitems.symm.eq_nil
    obtain ⟨it0, rest, hcons⟩ := List.exists_cons_of_ne_nil hne2
    have hnode_items : node ∈ mpSortedItems mp := hitems.symm.subset hnode
    have hdn : depth mp.sep node = 0 := by
      rw [depth, hparts]
      rfl
    have hd0 : depth mp.sep it0 = 0 := by
      have hsort := mpSortedItems_sorted mp
      rw [hcons] at hsort hnode_items
      rcases List.mem_cons.mp hnode_items with rfl | hmem
      · exact hdn
      · have hle := (List.sorted_cons.mp hsort).1 node hmem
        omega
    have hp0 : pathParts mp.sep it0.path = [] :=
      List.length_eq_zero.mp hd0
    refine ⟨it0.node_id, it0.path, ?_⟩
    rw [hcons, List.foldlM_cons]
    have hstep : mpStep mp.sep AdjacencyListTree.empty it0 =
        .error (.MalformedPath it0.node_id it0.path) := by
      rw [mpStep]
      simp only [hp0]
      rfl
    rw [hstep]
    rfl
  · intro mp pre post item al₀ s hsep hitems hpre hlast hs
    have hnodes_ne : mp.nodes ≠ [] := by
      intro h
      have hperm := mpSortedItems_perm mp
      rw [hitems, h] at hperm
      have := hperm.eq_nil
      simp at this
    rw [convert_mp_to_al, if_neg (by rintro ⟨h1, -⟩; exact hsep h1)]
    rw [hitems, List.foldlM_append, hpre]
    show (item :: post).foldlM (mpStep mp.sep) al₀ = _
    rw [List.foldlM_cons]
    have hstep : mpStep mp.sep al₀ item =
        .error (.PathIdentityMismatch item.node_id s) := by
      rw [mpStep]
      simp only [hlast]
      rw [if_pos hs]
    rw [hstep]
    rfl

/-- Witness for `claim_C6`: a node with path `"/"` (zero segments) fails
with `MalformedPath`, and Scenario C fails with `PathIdentityMismatch`. -/
theorem claim_C6_witness :
    (∃ i pth, convert_mp_to_al mpZeroSeg = .error (.MalformedPath i pth)) ∧
    convert_mp_to_al mpScenarioC =
      .error (.PathIdentityMismatch (str "Z") (str "Y")) :=
  ⟨claim_C6.1 mpZeroSeg (by decide) (MPNode.mk (str "a") (str "/") [])
    (by decide) rfl, claim_C6.2.2⟩

/-- **C7** (confirmed): `AdjacencyListTree.add_node` fails with
`DuplicateIdentifier` on a present identifier and with `UnknownParent` on
an absent parent, and in every failing case the container is left exactly
as it was (validation precedes mutation: the state component of the
statement-level embedding is unchanged). -/
theorem claim_C7 (al : AdjacencyListTree) (id : Str) (p : Option Str)
    (nm : Str) :
    (al.contains id = true →
      al.add_node_st id p nm = (.error (.DuplicateIdentifier id), al) ∧
      al.add_node id p nm = .error (.DuplicateIdentifier id)) ∧
    (∀ q, p = some q → al.contains id = false → al.contains q = false →
      al.add_node_st id p nm = (.error (.UnknownParent q), al) ∧
      al.add_node id p nm = .error (.UnknownParent q)) ∧
    (∀ e, (al.add_node_st id p nm).1 = .error e →
      (al.add_node_st id p nm).2 = al ∧
      (al.add_node_st id p nm).2.size = al.size) := by
  refine ⟨?_, ?_, ?_⟩
  · intro hc
    have h1 : al.add_node_st id p nm =
        (.error (.DuplicateIdentifier id), al) := by
      simp [AdjacencyListTree.add_node_st, hc]
    exact ⟨h1, by rw [AdjacencyListTree.add_node, h1]⟩
  · intro q hq hcid hcq
    subst hq
    have h1 : al.add_node_st id (some q) nm =
        (.error (.UnknownParent q), al) := by
      simp [AdjacencyListTree.add_node_st, hcid, hcq]
    exact ⟨h1, by rw [AdjacencyListTree.add_node, h1]⟩
  · intro e he
    by_cases hc : al.contains id
    · refine ⟨?_, ?_⟩
      · simp [AdjacencyListTree.add_node_st, hc]
      · simp [AdjacencyListTree.add_node_st, hc, AdjacencyListTree.size]
    · cases p with
      | none =>
        exfalso
        simp [AdjacencyListTree.add_node_st, hc] at he
      | some q =>
        by_cases hcq : al.contains q
        · exfalso
          simp [AdjacencyListTree.add_node_st, hc, hcq] at he
        · refine ⟨?_, ?_⟩
          · simp [AdjacencyListTree.add_node_st, hc, hcq]
          · simp [AdjacencyListTree.add_node_st, hc, hcq,
              AdjacencyListTree.size]

/-- Witness for `claim_C7`: a duplicate `A` and an unknown parent `Q` on
the Scenario A tree. -/
theorem claim_C7_witness :
    (alScenarioA.add_node_st (str "A") none [] =
      (.error (.DuplicateIdentifier (str "A")), alScenarioA) ∧
     alScenarioA.add_node (str "A") none [] =
      .error (.DuplicateIdentifier (str "A"))) ∧
    (alScenarioA.add_node_st (str "E") (some (str "Q")) [] =
      (.error (.UnknownParent (str "Q")), alScenarioA) ∧
     alScenarioA.add_node (str "E") (some (str "Q")) [] =
      .error (.UnknownParent (str "Q"))) :=
  ⟨(claim_C7 alScenarioA (str "A") none []).1 (by decide),
   (claim_C7 alScenarioA (str "E") (some (str "Q")) []).2.1 (str "Q") rfl
     (by decide) (by decide)⟩

/-- **C8** (confirmed): `MaterializedPathTree.add_node` fails with
`DuplicateIdentifier` on a present identifier, fails with `MalformedPath`
when the path does not start with the configured delimiter, and otherwise
inserts unconditionally with no other check on the path. -/
theorem claim_C8 (mp : MaterializedPathTree) (id pth nm : Str) :
    (mp.contains id = true →
      mp.add_node id pth nm = .error (.DuplicateIdentifier id)) ∧
    (mp.contains id = false → mp.sep.isPrefixOf pth = false →
      mp.add_node id pth nm = .error (.MalformedPath id pth)) ∧
    (mp.contains id = false → mp.sep.isPrefixOf pth = true →
      mp.add_node id pth nm =
        .ok ⟨mp.sep, mp.nodes ++ [MPNode.mk id pth nm]⟩) := by
  refine ⟨?_, ?_, ?_⟩
  · intro hc
    rw [MaterializedPathTree.add_node, if_pos hc]
  · intro hc hpre
    rw [MaterializedPathTree.add_node, if_neg (by simp [hc]),
      if_pos (by simp [hpre])]
  · intro hc hpre
    exact mp_add_node_ok hc hpre

/-- Witness for `claim_C8`: Scenario B — path `X/Y` with delimiter `/`
fails with `MalformedPath`. -/
theorem claim_C8_witness :
    (MaterializedPathTree.empty (str "/")).add_node (str "Y") (str "X/Y")
      [] = .error (.MalformedPath (str "Y") (str "X/Y")) :=
  (claim_C8 (MaterializedPathTree.empty (str "/")) (str "Y") (str "X/Y")
    []).2.1 (by decide) (by decide)

/-- **C9** (confirmed): in every tree built by successful `add_node`
calls, following parent pointers from any node reaches a root (within
`al.size` steps), i.e. the parent-pointer graph is an acyclic forest;
the invariant holds with no separate cycle check in `add_node`. -/
theorem claim_C9 {al : AdjacencyListTree} (hb : Built al) :
    ∀ n ∈ al.nodes, reachesRootB al al.size n.node_id = true := by
  intro n hn
  have hv : n.node_id ∈ ids al := List.mem_map_of_mem _ hn
  exact reachesRootB_of_rank hb (rank al n.node_id) n.node_id rfl hv al.size
    (rank_lt_size hv)

/-- Witness for `claim_C9`: node `D` of the Scenario A tree reaches a
root. -/
theorem claim_C9_witness :
    reachesRootB alScenarioA alScenarioA.size
      (ALNode.mk (str "D") (some (str "B")) (str "Node D")).node_id = true :=
  claim_C9 built_alScenarioA
    (ALNode.mk (str "D") (some (str "B")) (str "Node D")) (by decide)

/-- **C10** (confirmed): no operation restricts the delimiter from
occurring in an identifier — `add_node` accepts the identifier `A/B` with
delimiter `/`; the forward conversion of that single-root tree succeeds
with path `/A/B`, and the reverse conversion of its output fails with
`PathIdentityMismatch`, so the round trip does not hold for it. -/
theorem claim_C10 :
    AdjacencyListTree.empty.add_node (str "A/B") none [] = .ok alSlash ∧
    convert_al_to_mp alSlash (str "/") = .ok mpSlash ∧
    mpSlash.find? (str "A/B") =
      some (MPNode.mk (str "A/B") (str "/A/B") []) ∧
    convert_mp_to_al mpSlash =
      .error (.PathIdentityMismatch (str "A/B") (str "B")) :=
  ⟨rfl, rfl, rfl, rfl⟩

end Lr7
